import Mathlib

/-!
Verification of the Lovelace migration engine (lovelace_migrate.py).

The file shallowly embeds the conversion engine of the repository:
the ordered-mapping base class LovelaceBase (with its sortkeys key
reordering discipline and add_item helper), the card and view builders,
the group resolver (View.from_group_config, EntitiesCard.from_group_config,
Card.from_config), and the ingestion pipeline (build_entities,
build_states, the Lovelace constructor).

Python values stored in the ordered mappings are modelled by the
inductive type Value; a Lovelace object (an OrderedDict subclass with a
key_order attribute) is modelled by the structure Node.  Python
exceptions (ValueError from unpacking a split without a separator,
KeyError from a missing required attribute) are modelled by Option,
with none standing for an uncaught exception.
-/

namespace Lovelace

/-- A Python value as stored in the UI mappings: strings, booleans,
numbers, None, lists, and nested mapping objects (a nested object is
kept as its field list, which is what serialization reads). -/
inductive Value : Type where
  | vs : String → Value
  | vb : Bool → Value
  | vn : Nat → Value
  | vnone : Value
  | vlist : List Value → Value
  | vnode : List (String × Value) → Value

/-- A list of identifiers as a stored value. -/
def vstrs (l : List String) : Value := Value.vlist (l.map Value.vs)

/-- True only for the Python None value. -/
def Value.isNone : Value → Bool
  | Value.vnone => true
  | _ => false

/-- A Lovelace object: an ordered mapping (assoc list, in insertion
order) together with the key_order attribute set by the constructor of
its class. -/
structure Node where
  key_order : List String
  fields : List (String × Value)

/-- Membership test for a key of the ordered mapping. -/
def hasKey (fs : List (String × Value)) (k : String) : Bool :=
  fs.any (fun p => p.1 == k)

/-- Value stored at a key, if the key is present. -/
def nodeLookup (fs : List (String × Value)) (k : String) : Option Value :=
  (fs.find? (fun p => p.1 == k)).map (fun p => p.2)

/-- OrderedDict.move_to_end: the (unique) entry of key k is moved to the
back (last = true) or to the front (last = false); all other entries
keep their relative order.  Keys of a Python dict are unique, so the
entry is recovered by filtering. -/
def moveToEnd (fs : List (String × Value)) (k : String) (last : Bool) :
    List (String × Value) :=
  let entry := fs.filter (fun p => p.1 == k)
  let rest := fs.filter (fun p => p.1 != k)
  if last then rest ++ entry else entry ++ rest

/-- The enumeration loop of LovelaceBase.sortkeys: for each key of the
(already front-reversed) key order, skip the delimiter position and
missing keys, and move present keys to the front (index before the
delimiter) or to the back (index after the delimiter). -/
def sortkeysLoop (fs : List (String × Value)) :
    List String → Nat → Nat → List (String × Value)
  | [], _, _ => fs
  | k :: rest, i, mid =>
      let fs1 := if i == mid || !hasKey fs k then fs
                 else moveToEnd fs k (decide (i > mid))
      sortkeysLoop fs1 rest (i + 1) mid

/-- LovelaceBase.sortkeys: compute the delimiter position mid (length of
the key order when the delimiter is absent), reverse the keys before the
delimiter, and run the move loop. -/
def sortkeys (n : Node) : Node :=
  let ko := n.key_order
  let mid := ko.findIdx (fun k => k == "...")
  let iter := (ko.take mid).reverse ++ ko.drop mid
  Node.mk ko (sortkeysLoop n.fields iter 0 mid)

/-- LovelaceBase.__setitem__: replace the value in place when the key
exists; otherwise append the new key at the back and re-run sortkeys. -/
def Node.setItem (n : Node) (k : String) (v : Value) : Node :=
  if hasKey n.fields k then
    Node.mk n.key_order (n.fields.map (fun p => if p.1 == k then (p.1, v) else p))
  else
    sortkeys (Node.mk n.key_order (n.fields ++ [(k, v)]))

/-- LovelaceBase.__init__ after the class-specific seed assignments:
self.update(kwargs) inserts every keyword argument through __setitem__
(in call order), then every key whose value is None is deleted. -/
def initNode (ko : List String) (seed : List (String × Value))
    (kwargs : List (String × Value)) : Node :=
  let n := kwargs.foldl (fun n p => n.setItem p.1 p.2) (Node.mk ko seed)
  Node.mk ko (n.fields.filter (fun p => !p.2.isNone))

/-- Appending one item to a stored list: a list item extends, any other
item is appended (self[key].extend(item) / self[key].append(item)). -/
def appendTo : Value → Value → Value
  | Value.vlist l, Value.vlist l2 => Value.vlist (l ++ l2)
  | Value.vlist l, x => Value.vlist (l ++ [x])
  | o, _ => o

/-- LovelaceBase.add_item: a None item is ignored; otherwise the key is
created as an empty list when absent (through __setitem__, which sorts),
and the item is appended or extended in place. -/
def Node.addItem (n : Node) (k : String) (item : Option Value) : Node :=
  match item with
  | none => n
  | some v =>
      let n1 := if hasKey n.fields k then n else n.setItem k (Value.vlist [])
      Node.mk n1.key_order
        (n1.fields.map (fun p => if p.1 == k then (p.1, appendTo p.2 v) else p))

/-- Optional string attribute as a stored value (absent becomes None). -/
def optS : Option String → Value
  | none => Value.vnone
  | some s => Value.vs s

/-- Optional numeric attribute as a stored value (absent becomes None). -/
def optN : Option Nat → Value
  | none => Value.vnone
  | some n => Value.vn n

/-- The declared key order of a View node. -/
def viewKeyOrder : List String :=
  ["title", "id", "icon", "panel", "theme", "...", "cards"]

/-- The declared key order of an entities card. -/
def entitiesKeyOrder : List String :=
  ["type", "title", "show_header_toggle", "...", "entities"]

/-- The declared key order of a history-graph card. -/
def historyGraphKeyOrder : List String :=
  ["type", "title", "hours_to_show", "refresh_interval", "...", "entities"]

/-- The declared key order of a picture-entity card. -/
def pictureEntityKeyOrder : List String :=
  ["type", "title", "entity", "camera_image", "image", "state_image",
   "show_info", "tap_action"]

/-- The declared key order of a media-control card. -/
def mediaControlKeyOrder : List String := ["type", "entity"]

/-- The declared key order of a plant-status card. -/
def plantStatusKeyOrder : List String := ["type", "entity"]

/-- The declared key order of a weather-forecast card. -/
def weatherForecastKeyOrder : List String := ["type", "entity"]

/-- The declared key order of the root Lovelace document. -/
def lovelaceKeyOrder : List String :=
  ["title", "resources", "excluded_entities", "...", "views"]

/-- The attributes mapping of an entity, restricted to the keys the
engine reads.  An Option field models presence of the key; the view
flag models attributes.get with default False. -/
structure Attributes where
  friendly_name : Option String
  icon : Option String
  view : Bool
  control : Option String
  hours_to_show : Option Nat
  refresh : Option Nat
  entity_id : Option (List String)

/-- Attributes with every key absent (view flag reads as False). -/
def attrs0 : Attributes :=
  Attributes.mk none none false none none none none

/-- Scan for the first separator: the characters before it (reversed
accumulator) become the domain, the characters after it the object id. -/
def splitDomainAux : List Char → List Char → Option (String × String)
  | [], _ => none
  | c :: rest, acc =>
      if c = '.' then some (String.mk acc.reverse, String.mk rest)
      else splitDomainAux rest (c :: acc)

/-- entity_id.split with one split: the domain before the first
separator and the rest; none models the ValueError raised by unpacking
when the identifier has no separator. -/
def splitEntityId (s : String) : Option (String × String) :=
  splitDomainAux s.data []

/-- PictureEntityCard.from_camera_config. -/
def fromCameraConfig (eid : String) (a : Attributes) : Node :=
  initNode pictureEntityKeyOrder [("type", Value.vs "picture-entity")]
    [("title", optS a.friendly_name), ("entity", Value.vs eid),
     ("camera_image", Value.vs eid), ("show_info", Value.vb true),
     ("tap_action", Value.vs "dialog")]

/-- HistoryGraphCard.from_history_graph_config, given the required raw
entity_id attribute list (copied verbatim into the card). -/
def fromHistoryGraphConfig (a : Attributes) (ids : List String) : Node :=
  initNode historyGraphKeyOrder [("type", Value.vs "history-graph")]
    [("title", optS a.friendly_name), ("hours_to_show", optN a.hours_to_show),
     ("refresh_interval", optN a.refresh), ("entities", vstrs ids)]

/-- MediaControlCard.from_media_player_config. -/
def fromMediaPlayerConfig (eid : String) : Node :=
  initNode mediaControlKeyOrder [("type", Value.vs "media-control")]
    [("entity", Value.vs eid)]

/-- PlantStatusCard.from_plant_config. -/
def fromPlantConfig (eid : String) : Node :=
  initNode plantStatusKeyOrder [("type", Value.vs "plant-status")]
    [("entity", Value.vs eid)]

/-- WeatherForecastCard.from_weather_config. -/
def fromWeatherConfig (eid : String) : Node :=
  initNode weatherForecastKeyOrder [("type", Value.vs "weather-forecast")]
    [("entity", Value.vs eid)]

/-- The primary entities card of EntitiesCard.from_group_config: titled
with the friendly name, show_header_toggle true unless the control
attribute is the literal value hidden, listing the cardless member
identifiers. -/
def primaryEntitiesCard (a : Attributes) (ns : List String) : Node :=
  initNode entitiesKeyOrder [("type", Value.vs "entities")]
    [("title", optS a.friendly_name),
     ("show_header_toggle", Value.vb (a.control != some "hidden")),
     ("entities", vstrs ns)]

/-- The synthesized entities card of View.from_group_config: only the
cardless member identifiers, no title, no toggle. -/
def synthEntitiesCard (ns : List String) : Node :=
  initNode entitiesKeyOrder [("type", Value.vs "entities")]
    [("entities", vstrs ns)]

/-- View.__init__ applied to the keyword arguments of
View.from_group_config. -/
def viewInit (a : Attributes) : Node :=
  initNode viewKeyOrder []
    [("title", optS a.friendly_name), ("icon", optS a.icon)]

mutual
/-- An entity record as seen by the resolver: identifier, attributes,
and the resolved member records built by build_states (present, in
membership-list encounter order, only for identifiers found in the
registry). -/
inductive GEntity : Type where
  | mk : String → Attributes → GList → GEntity
/-- A list of resolved member records (the values of the entities
mapping, in insertion order). -/
inductive GList : Type where
  | nil : GList
  | cons : GEntity → GList → GList
end

/-- Identifier of an entity record. -/
def GEntity.entity_id : GEntity → String
  | GEntity.mk i _ _ => i

/-- Attributes of an entity record. -/
def GEntity.attributes : GEntity → Attributes
  | GEntity.mk _ a _ => a

/-- Resolved members of an entity record. -/
def GEntity.entities : GEntity → GList
  | GEntity.mk _ _ ms => ms

/-- Plain list of the resolved members. -/
def gToList : GList → List GEntity
  | GList.nil => []
  | GList.cons e rest => e :: gToList rest

/-- Outcome of Lovelace.Card.from_config for one entity: no card
(unsupported domain), a single card, or a list of cards (a group). -/
inductive CardResult : Type where
  | nocard : CardResult
  | card : Node → CardResult
  | cards : List Node → CardResult

mutual
/-- Lovelace.Card.from_config combined with the dispatch through
LovelaceBase.from_config and the per-domain from_xxx_config builders.
The outer none models an uncaught exception (malformed identifier, or a
history_graph entity without the entity_id attribute). -/
def cardFromConfig : GEntity → Option CardResult
  | GEntity.mk eid attrs members =>
      match splitEntityId eid with
      | none => none
      | some (domain, _) =>
          if domain == "camera" then
            some (CardResult.card (fromCameraConfig eid attrs))
          else if domain == "group" then
            match memberFold members with
            | none => none
            | some (cs, ns) =>
                some (CardResult.cards
                  (if ns.isEmpty then cs else primaryEntitiesCard attrs ns :: cs))
          else if domain == "history_graph" then
            match attrs.entity_id with
            | none => none
            | some ids => some (CardResult.card (fromHistoryGraphConfig attrs ids))
          else if domain == "media_player" then
            some (CardResult.card (fromMediaPlayerConfig eid))
          else if domain == "plant" then
            some (CardResult.card (fromPlantConfig eid))
          else if domain == "weather" then
            some (CardResult.card (fromWeatherConfig eid))
          else
            some CardResult.nocard
termination_by structural e => e

/-- The member loop shared by View.from_group_config and
EntitiesCard.from_group_config: list results extend the cards
accumulator, single cards are appended, and a None result records the
member identifier in the nocards accumulator; both accumulators keep
encounter order.  A none result models an exception propagating out of
the loop. -/
def memberFold : GList → Option (List Node × List String)
  | GList.nil => some ([], [])
  | GList.cons e rest =>
      match cardFromConfig e with
      | none => none
      | some r =>
          match memberFold rest with
          | none => none
          | some (cs, ns) =>
              match r with
              | CardResult.nocard => some (cs, e.entity_id :: ns)
              | CardResult.card c => some (c :: cs, ns)
              | CardResult.cards l => some (l ++ cs, ns)
termination_by structural l => l
end

/-- EntitiesCard.from_group_config: run the member loop; when there are
cardless members, return the primary entities card followed by the
member cards, otherwise only the member cards. -/
def entitiesFromGroupConfig (g : GEntity) : Option (List Node) :=
  match memberFold g.entities with
  | none => none
  | some (cs, ns) =>
      some (if ns.isEmpty then cs else primaryEntitiesCard g.attributes ns :: cs)

/-- View.from_group_config: None for a non-view group; otherwise run
the member loop, prepend the synthesized entities card of the cardless
members when any exist, and add the resulting list to the cards field
of a fresh View node.  The outer none models a propagating exception. -/
def viewFromGroupConfig (g : GEntity) : Option (Option Node) :=
  if g.attributes.view == false then some none
  else
    match memberFold g.entities with
    | none => none
    | some (cs, ns) =>
        let allCards := if ns.isEmpty then cs else synthEntitiesCard ns :: cs
        some (some ((viewInit g.attributes).addItem "cards"
          (some (Value.vlist (allCards.map (fun c => Value.vnode c.fields))))))

/-- Underscore replacement of object_id.replace. -/
def underscoreToSpace (s : String) : String :=
  String.mk (s.data.map (fun c => if c = '_' then ' ' else c))

/-- The character scan of the Python str.title method: a cased
character is uppercased after a non-cased character and lowercased
after a cased one; non-cased characters pass through and reset the
word. -/
def titleAux : List Char → Bool → List Char
  | [], _ => []
  | c :: rest, prevCased =>
      if c.isAlpha then
        (if prevCased then c.toLower else c.toUpper) :: titleAux rest true
      else c :: titleAux rest false

/-- Python str.title. -/
def pyTitle (s : String) : String := String.mk (titleAux s.data false)

/-- The display-name synthesis of build_entities: replace underscores
with spaces and title-case the result. -/
def synth (oid : String) : String := pyTitle (underscoreToSpace oid)

/-- An entity record of the states JSON as ingested. -/
structure StateEntity where
  entity_id : String
  state : String
  attributes : Attributes

/-- An entity record after build_entities ran over it: domain and
object_id split out of the identifier, friendly_name guaranteed
present.  In the Python code this is the same (mutated) record
object. -/
structure RichEntity where
  entity_id : String
  state : String
  attributes : Attributes
  domain : String
  object_id : String

/-- The per-record work of build_entities: split the identifier (none
models the ValueError when it has no separator) and default the
friendly_name attribute from the object id. -/
def enrich (e : StateEntity) : Option RichEntity :=
  match splitEntityId e.entity_id with
  | none => none
  | some (d, o) =>
      some (RichEntity.mk e.entity_id e.state
        { e.attributes with
            friendly_name := some (e.attributes.friendly_name.getD (synth o)) }
        d o)

/-- Lovelace.build_entities: enrich every record of the states JSON in
order; the first malformed identifier aborts with an exception. -/
def build_entities : List StateEntity → Option (List RichEntity)
  | [] => some []
  | e :: rest =>
      match enrich e, build_entities rest with
      | some r, some rs => some (r :: rs)
      | _, _ => none

/-- Lookup of an identifier in the entities mapping (Python dict keyed
by entity_id; a duplicate identifier overwrites, so the last record
wins). -/
def lookupEntity (all : List RichEntity) (x : String) : Option RichEntity :=
  all.reverse.find? (fun e => e.entity_id == x)

/-- The member identifiers build_states resolves for a record:
membership-list entries found in the registry, in encounter order,
with a repeated identifier kept at its first position (dict insertion
semantics); a record without the entity_id attribute resolves to no
members. -/
def resolvedMemberIds (all : List RichEntity) (e : RichEntity) : List String :=
  match e.attributes.entity_id with
  | none => []
  | some ids =>
      ids.foldl (fun acc x =>
        if (lookupEntity all x).isSome && !(acc.contains x) then acc ++ [x]
        else acc) []

/-- Insert a record into a per-domain dict keyed by object_id (a
duplicate object id overwrites in place). -/
def insertObj (l : List RichEntity) (e : RichEntity) : List RichEntity :=
  if l.any (fun x => x.object_id == e.object_id) then
    l.map (fun x => if x.object_id == e.object_id then e else x)
  else l ++ [e]

/-- Insert a record into the states dict keyed by domain. -/
def insertDomain (st : List (String × List RichEntity)) (e : RichEntity) :
    List (String × List RichEntity) :=
  if st.any (fun p => p.1 == e.domain) then
    st.map (fun p => if p.1 == e.domain then (p.1, insertObj p.2 e) else p)
  else st ++ [(e.domain, insertObj [] e)]

/-- The grouping part of Lovelace.build_states: domain to records, in
first-encounter order of domains and of object ids. -/
def statesOf (all : List RichEntity) : List (String × List RichEntity) :=
  all.foldl insertDomain []

/-- Build the member lists of a record (the identifier references of
build_states turned into the record tree the resolver walks), given
the recursive builder for one record. -/
def buildMembers (all : List RichEntity) (f : RichEntity → Option GEntity) :
    List String → Option GList
  | [] => some GList.nil
  | x :: rest =>
      match lookupEntity all x with
      | none => none
      | some e =>
          match f e, buildMembers all f rest with
          | some g, some l => some (GList.cons g l)
          | _, _ => none

/-- Turn a record into the resolver tree: the reference structure
build_states creates by storing resolved member records on each
record.  The fuel bounds the recursion depth; exhaustion models the
unbounded recursion of a cyclic group graph (which the source does not
guard against). -/
def treeify (all : List RichEntity) : Nat → RichEntity → Option GEntity
  | 0, _ => none
  | Nat.succ fuel, e =>
      (buildMembers all (treeify all fuel) (resolvedMemberIds all e)).map
        (GEntity.mk e.entity_id e.attributes)

/-- View.from_config on a record: the LovelaceBase.from_config
dispatch (identifier split, lookup of the per-domain conversion
method); only a group record reaches from_group_config, any other
domain is reported and yields None. -/
def viewFromConfigR (all : List RichEntity) (fuel : Nat) (e : RichEntity) :
    Option (Option Node) :=
  match treeify all fuel e with
  | none => none
  | some g =>
      match splitEntityId g.entity_id with
      | none => none
      | some (d, _) => if d == "group" then viewFromGroupConfig g else some none

/-- The fixed iteration order of Lovelace.CARD_DOMAINS. -/
def cardDomainsOrder : List String :=
  ["camera", "group", "history_graph", "media_player", "plant", "weather"]

/-- view.add_card applied to a from_config result: a None result is
not added, a single card is appended, a list extends. -/
def addCardResult (v : Node) : CardResult → Node
  | CardResult.nocard => v
  | CardResult.card c => v.addItem "cards" (some (Value.vnode c.fields))
  | CardResult.cards l =>
      v.addItem "cards" (some (Value.vlist (l.map (fun c => Value.vnode c.fields))))

/-- The default-view synthesis loop of Lovelace.__init__: a Home view
collecting, per card domain in table order, the card of every record
of that domain that is not a view-flagged group. -/
def homeViewFold (all : List RichEntity) (fuel : Nat)
    (states : List (String × List RichEntity)) : Option Node :=
  let ents := cardDomainsOrder.flatMap (fun d =>
    (((states.find? (fun p => p.1 == d)).map Prod.snd).getD []).filter
      (fun e => !(d == "group" && e.attributes.view)))
  ents.foldlM (fun v e =>
      match treeify all fuel e with
      | none => none
      | some g => (cardFromConfig g).map (addCardResult v))
    (initNode viewKeyOrder [] [("title", Value.vs "Home")])

/-- Lovelace.add_view: add_item on the views key (a None view adds
nothing). -/
def addView (doc : Node) (v : Option Node) : Node :=
  doc.addItem "views" (v.map (fun n => Value.vnode n.fields))

/-- The title default of Lovelace.__init__ (title or Home, so an empty
title also falls back). -/
def titleOr : Option String → String
  | none => "Home"
  | some t => if t == "" then "Home" else t

/-- The trailing loop of Lovelace.__init__: every remaining view group
through View.from_config and add_view. -/
def restFold (all : List RichEntity) (fuel : Nat) (doc : Node)
    (vs : List RichEntity) : Option Node :=
  vs.foldlM (fun d e => (viewFromConfigR all fuel e).map (addView d)) doc

/-- Lovelace.__init__: build the registry, group it by domain, take
the view-flagged groups, emit the default view first when one is named
default_view, otherwise synthesize the Home view (skipped when it got
no cards), then append the remaining views in registry order.  A none
result models an uncaught exception anywhere in the pipeline. -/
def lovelaceInit (fuel : Nat) (title : Option String)
    (states_json : List StateEntity) : Option Node :=
  match build_entities states_json with
  | none => none
  | some all =>
      let doc := (Node.mk lovelaceKeyOrder []).setItem "title"
        (Value.vs (titleOr title))
      let states := statesOf all
      let groups := ((states.find? (fun p => p.1 == "group")).map Prod.snd).getD []
      let views := groups.filter (fun e => e.attributes.view)
      match views.find? (fun e => e.object_id == "default_view") with
      | some dv =>
          (match viewFromConfigR all fuel dv with
           | none => none
           | some v0 =>
               restFold all fuel (addView doc v0)
                 (views.filter (fun e => e.object_id != "default_view")))
      | none =>
          match homeViewFold all fuel states with
          | none => none
          | some hv =>
              restFold all fuel
                (if (nodeLookup hv.fields "cards").isSome
                 then addView doc (some hv) else doc)
                views

/-- True when a from_config result is the Python None (no card). -/
def isNocard : Option CardResult → Bool
  | some CardResult.nocard => true
  | _ => false

/-- The cards a from_config result contributes to the cards
accumulator of the member loop (none for the exception case, which the
loop aborts on anyway). -/
def cardsOf : Option CardResult → List Node
  | some (CardResult.card c) => [c]
  | some (CardResult.cards l) => l
  | _ => []

/-- View.add_card / Lovelace.EntitiesCard.add_entity style delegates
to add_item. -/
def addCard (n : Node) (c : Option Value) : Node := n.addItem "cards" c

/-- EntitiesCard.add_entity: add_item on the entities key. -/
def addEntity (n : Node) (c : Option Value) : Node := n.addItem "entities" c

/-- Lovelace.Resource applied to a url keyword (type defaults to js). -/
def resourceNode (s : String) : Node :=
  initNode ["url", "type"] []
    [("url", Value.vs s), ("type", Value.vs "js")]

/-- Lovelace.add_resource: a string becomes a Resource node first;
anything else (None included) is handed to add_item as is.  The dict
branch of the source is not modelled (it is never invoked and would
raise a TypeError). -/
def addResource (n : Node) (r : Option Value) : Node :=
  match r with
  | some (Value.vs s) =>
      n.addItem "resources" (some (Value.vnode (resourceNode s).fields))
  | r => n.addItem "resources" r

/-- Replace only the view flag of an entity record. -/
def setViewFlag (e : GEntity) (b : Bool) : GEntity :=
  GEntity.mk e.entity_id { e.attributes with view := b } e.entities

mutual
/-- Well-formedness of an entity record per the input contract of the
spec: the identifier has a domain separator, a history_graph record
carries the entity_id attribute, and members are well formed. -/
def wfG : GEntity → Bool
  | GEntity.mk i a ms =>
      (match splitEntityId i with
       | none => false
       | some (d, _) => d != "history_graph" || a.entity_id.isSome) && wfL ms
termination_by structural e => e
/-- Well-formedness of a member list. -/
def wfL : GList → Bool
  | GList.nil => true
  | GList.cons e rest => wfG e && wfL rest
termination_by structural l => l
end

/-- The friendly_name attribute of every record after build_entities. -/
def friendlyNamesAfterBuild (es : List StateEntity) : Option (List (Option String)) :=
  (build_entities es).map (fun rs => rs.map (fun r => r.attributes.friendly_name))

/-- Whether an identifier is found in the registry built from the
given states JSON. -/
def registryHas (es : List StateEntity) (x : String) : Bool :=
  match build_entities es with
  | none => false
  | some all => (lookupEntity all x).isSome

/-- The first entry of the ordered mapping holding the given key. -/
def entryOf (fs : List (String × Value)) (k : String) : Option (String × Value) :=
  fs.find? (fun p => p.1 == k)

/-- Key uniqueness, the standing invariant of a Python dict. -/
def keysNodup (fs : List (String × Value)) : Prop :=
  (fs.map Prod.fst).Nodup

/-- The head segment of a key order: the keys before the delimiter
(the whole order when no delimiter occurs). -/
def headOf (ko : List String) : List String :=
  ko.take (ko.findIdx (fun k => k == "..."))

/-- The tail segment of a key order: the keys after the delimiter
(empty when no delimiter occurs). -/
def tailOf (ko : List String) : List String :=
  ko.drop (ko.findIdx (fun k => k == "...") + 1)

/-- The front phase of the sortkeys loop: each present key is moved to
the front in processing order. -/
def frontPass : List (String × Value) → List String → List (String × Value)
  | fs, [] => fs
  | fs, k :: ks => frontPass (if hasKey fs k then moveToEnd fs k false else fs) ks

/-- The back phase of the sortkeys loop: each present key is moved to
the back in processing order. -/
def backPass : List (String × Value) → List String → List (String × Value)
  | fs, [] => fs
  | fs, k :: ks => backPass (if hasKey fs k then moveToEnd fs k true else fs) ks

/-- The documented field layout of a node, over its entry list in
first-set order: present head fields in schema order, then the other
fields in first-set order, then present tail fields in schema order. -/
def specFields (ko : List String) (fs : List (String × Value)) :
    List (String × Value) :=
  (headOf ko).filterMap (entryOf fs) ++
  fs.filter (fun p => !(headOf ko).contains p.1 && !(tailOf ko).contains p.1) ++
  (tailOf ko).filterMap (entryOf fs)

/-- The documented key layout of a node, over its key list in
first-set order. -/
def specKeys (ko : List String) (S : List String) : List String :=
  (headOf ko).filter (fun k => S.contains k) ++
  S.filter (fun k => !(headOf ko).contains k && !(tailOf ko).contains k) ++
  (tailOf ko).filter (fun k => S.contains k)

/-- A sequence of item assignments through __setitem__. -/
def insertSeq (n : Node) (ops : List (String × Value)) : Node :=
  ops.foldl (fun n p => n.setItem p.1 p.2) n

/-- What build_entities does to one record, stated as a relation
between the ingested record and the record after the call: identifier,
state value and every attribute other than friendly_name are unchanged,
friendly_name is defaulted from the object id and preserved when it was
present. -/
def enrichSpec (e : StateEntity) (r : RichEntity) : Prop :=
  r.entity_id = e.entity_id ∧ r.state = e.state ∧
  r.attributes.icon = e.attributes.icon ∧
  r.attributes.view = e.attributes.view ∧
  r.attributes.control = e.attributes.control ∧
  r.attributes.hours_to_show = e.attributes.hours_to_show ∧
  r.attributes.refresh = e.attributes.refresh ∧
  r.attributes.entity_id = e.attributes.entity_id ∧
  r.attributes.friendly_name =
    some (e.attributes.friendly_name.getD (synth r.object_id)) ∧
  (∀ fn, e.attributes.friendly_name = some fn →
    r.attributes.friendly_name = some fn)

/-- Drill into a produced document: the entities field of the first
card of the first view. -/
def firstViewFirstCardEntities (d : Option Node) : Option Value :=
  match d with
  | none => none
  | some doc =>
      match nodeLookup doc.fields "views" with
      | some (Value.vlist (Value.vnode vf :: _)) =>
          (match nodeLookup vf "cards" with
           | some (Value.vlist (Value.vnode cf :: _)) => nodeLookup cf "entities"
           | _ => none)
      | _ => none

/-! Concrete entity records used by witnesses and counterexamples. -/

/-- A camera record with no attributes. -/
def eCamFront : GEntity := GEntity.mk "camera.front" attrs0 GList.nil

/-- A plain light record: its domain has no rule-table entry. -/
def eLightKitchen : GEntity := GEntity.mk "light.kitchen" attrs0 GList.nil

/-- A plain switch record. -/
def eSwitchA : GEntity := GEntity.mk "switch.a" attrs0 GList.nil

/-- A second camera record. -/
def eCamB : GEntity := GEntity.mk "camera.b" attrs0 GList.nil

/-- Attributes with only the view flag set. -/
def viewAttrs1 : Attributes := { attrs0 with view := true }

/-- The view group of the spec example: a camera and a light. -/
def gView1 : GEntity :=
  GEntity.mk "group.view1" viewAttrs1
    (GList.cons eCamFront (GList.cons eLightKitchen GList.nil))

/-- The non-view group of the spec example: a switch and a camera. -/
def gAB : GEntity :=
  GEntity.mk "group.ab" attrs0
    (GList.cons eSwitchA (GList.cons eCamB GList.nil))

/-- A group whose single member is the nested group gAB. -/
def gOuter2 : GEntity :=
  GEntity.mk "group.outer2" attrs0 (GList.cons gAB GList.nil)

/-- Attributes of a view-flagged group with a friendly name. -/
def innerViewAttrs : Attributes :=
  { attrs0 with view := true, friendly_name := some "Inner" }

/-- A view-flagged group holding a switch. -/
def gInnerView : GEntity :=
  GEntity.mk "group.inner" innerViewAttrs (GList.cons eSwitchA GList.nil)

/-- A group whose single member is the view-flagged group gInnerView. -/
def gOuterWithView : GEntity :=
  GEntity.mk "group.outer" attrs0 (GList.cons gInnerView GList.nil)

/-- A view group holding only a light (a cardless domain). -/
def gLightView : GEntity :=
  GEntity.mk "group.v7" viewAttrs1
    (GList.cons (GEntity.mk "light.x" attrs0 GList.nil) GList.nil)

/-- A history_graph attributes mapping referencing an identifier that
no record of the input carries. -/
def hgAttrs5 : Attributes := { attrs0 with entity_id := some ["sensor.ghost"] }

/-- A states JSON with a view group over a history_graph whose
membership list dangles. -/
def sj5 : List StateEntity :=
  [StateEntity.mk "group.view1" "on"
     { attrs0 with view := true, entity_id := some ["history_graph.h"] },
   StateEntity.mk "history_graph.h" "ok" hgAttrs5]

/-- A record without a friendly_name attribute. -/
def e9 : StateEntity := StateEntity.mk "light.kitchen_lights" "on" attrs0

/-- A record whose friendly_name attribute is present but empty. -/
def e8 : StateEntity :=
  StateEntity.mk "light.kitchen_lights" "on"
    { attrs0 with friendly_name := some "" }

end Lovelace

namespace Lovelace

/-- The key of a found entry is the key searched for. -/
theorem entryOf_key {fs : List (String × Value)} {k : String} {p : String × Value}
    (h : entryOf fs k = some p) : p.1 = k := by
  have := List.find?_some h
  simpa using this

/-- No entry is found when no key matches. -/
theorem entryOf_eq_none {fs : List (String × Value)} {k : String}
    (h : ∀ p ∈ fs, p.1 ≠ k) : entryOf fs k = none := by
  apply List.find?_eq_none.mpr
  intro p hp
  simpa using h p hp

/-- Finding over a concatenation takes the first side first. -/
theorem entryOf_append {l1 l2 : List (String × Value)} {k : String} :
    entryOf (l1 ++ l2) k = (entryOf l1 k).or (entryOf l2 k) := by
  simp [entryOf, List.find?_append]

/-- A filter that keeps every entry of the searched key does not change
the found entry. -/
theorem entryOf_filter_keep {q : String × Value → Bool}
    {fs : List (String × Value)} {k : String}
    (h : ∀ p : String × Value, p.1 = k → q p = true) :
    entryOf (fs.filter q) k = entryOf fs k := by
  induction fs with
  | nil => rfl
  | cons p t ih =>
      rw [List.filter_cons]
      by_cases hk : p.1 = k
      · have hk2 : (p.1 == k) = true := by simpa using hk
        rw [h p hk]
        simp [entryOf, List.find?, hk2]
      · have hk2 : (p.1 == k) = false := by simpa using hk
        cases hq : q p with
        | true => simp [entryOf, List.find?, hk2] at ih ⊢; exact ih
        | false => simp [entryOf, List.find?, hk2] at ih ⊢; exact ih

/-- A filter that drops every entry of the searched key finds
nothing. -/
theorem entryOf_filter_drop {q : String × Value → Bool}
    {fs : List (String × Value)} {k : String}
    (h : ∀ p : String × Value, p.1 = k → q p = false) :
    entryOf (fs.filter q) k = none := by
  apply entryOf_eq_none
  intro p hp hk
  have hq : q p = true := (List.mem_filter.mp hp).2
  rw [h p hk] at hq
  exact Bool.false_ne_true hq

/-- move_to_end permutes the entries. -/
theorem moveToEnd_perm (fs : List (String × Value)) (k : String) (b : Bool) :
    (moveToEnd fs k b).Perm fs := by
  have hsplit : (fs.filter (fun p => p.1 == k) ++
      fs.filter (fun p => !(p.1 == k))).Perm fs :=
    List.filter_append_perm _ fs
  have hne : fs.filter (fun p => p.1 != k) = fs.filter (fun p => !(p.1 == k)) := by
    simp [bne]
  unfold moveToEnd
  cases b with
  | false => simpa [hne] using hsplit
  | true =>
      simp only [if_pos rfl, hne]
      exact (List.perm_append_comm).trans hsplit

/-- move_to_end does not change which entry a key finds. -/
theorem entryOf_moveToEnd (fs : List (String × Value)) (k x : String) (b : Bool) :
    entryOf (moveToEnd fs k b) x = entryOf fs x := by
  by_cases hxk : x = k
  · subst hxk
    have hkeep : entryOf (fs.filter (fun p => p.1 == x)) x = entryOf fs x :=
      entryOf_filter_keep (by intro p hp; simpa using hp)
    have hdrop : entryOf (fs.filter (fun p => p.1 != x)) x = none :=
      entryOf_filter_drop (by intro p hp; simp [bne, hp])
    unfold moveToEnd
    cases b with
    | false =>
        rw [if_neg (by simp), entryOf_append, hkeep, hdrop]
        cases entryOf fs x <;> rfl
    | true =>
        rw [if_pos rfl, entryOf_append, hkeep, hdrop]
        rfl
  · have hkeep : entryOf (fs.filter (fun p => p.1 != k)) x = entryOf fs x := by
      apply entryOf_filter_keep
      intro p hp
      simp [bne, hp, hxk]
    have hdrop : entryOf (fs.filter (fun p => p.1 == k)) x = none := by
      apply entryOf_filter_drop
      intro p hp
      simp [hp, hxk]
    unfold moveToEnd
    cases b with
    | false =>
        rw [if_neg (by simp), entryOf_append, hkeep, hdrop]
        rfl
    | true =>
        rw [if_pos rfl, entryOf_append, hkeep, hdrop]
        cases entryOf fs x <;> rfl



/-- The front pass does not change which entry a key finds. -/
theorem entryOf_frontPass (ks : List String) :
    ∀ (fs : List (String × Value)) (x : String),
      entryOf (frontPass fs ks) x = entryOf fs x := by
  induction ks with
  | nil => intro fs x; rfl
  | cons k ks ih =>
      intro fs x
      simp only [frontPass]
      rw [ih]
      split
      · exact entryOf_moveToEnd fs k x false
      · rfl

/-- The back pass does not change which entry a key finds. -/
theorem entryOf_backPass (ks : List String) :
    ∀ (fs : List (String × Value)) (x : String),
      entryOf (backPass fs ks) x = entryOf fs x := by
  induction ks with
  | nil => intro fs x; rfl
  | cons k ks ih =>
      intro fs x
      simp only [backPass]
      rw [ih]
      split
      · exact entryOf_moveToEnd fs k x true
      · rfl

/-- The front pass permutes the entries. -/
theorem frontPass_perm (ks : List String) :
    ∀ (fs : List (String × Value)), (frontPass fs ks).Perm fs := by
  induction ks with
  | nil => intro fs; exact List.Perm.refl fs
  | cons k ks ih =>
      intro fs
      simp only [frontPass]
      refine (ih _).trans ?_
      split
      · exact moveToEnd_perm fs k false
      · exact List.Perm.refl fs

/-- The back pass permutes the entries. -/
theorem backPass_perm (ks : List String) :
    ∀ (fs : List (String × Value)), (backPass fs ks).Perm fs := by
  induction ks with
  | nil => intro fs; exact List.Perm.refl fs
  | cons k ks ih =>
      intro fs
      simp only [backPass]
      refine (ih _).trans ?_
      split
      · exact moveToEnd_perm fs k true
      · exact List.Perm.refl fs

/-- Processing keys whose indices sit before the delimiter position is
the front pass. -/
theorem sortkeysLoop_front (ks : List String) :
    ∀ (rest : List String) (fs : List (String × Value)) (i mid : Nat),
      i + ks.length ≤ mid →
      sortkeysLoop fs (ks ++ rest) i mid =
        sortkeysLoop (frontPass fs ks) rest (i + ks.length) mid := by
  induction ks with
  | nil => intro rest fs i mid _; simp [frontPass]
  | cons k ks ih =>
      intro rest fs i mid h
      have hi : i < mid := by
        have := h
        simp only [List.length_cons] at this
        omega
      have h1 : (i == mid) = false := by
        simp only [beq_eq_false_iff_ne, ne_eq]
        omega
      have h2 : decide (i > mid) = false := by
        simp only [decide_eq_false_iff_not]
        omega
      rw [List.cons_append, sortkeysLoop]
      simp only [h1, h2, Bool.false_or, frontPass]
      have harith : i + (k :: ks).length = (i + 1) + ks.length := by
        simp only [List.length_cons]; omega
      rw [harith]
      by_cases hk : hasKey fs k = true
      · simp only [hk, Bool.not_true, if_false, if_true]
        exact ih rest (moveToEnd fs k false) (i + 1) mid (by simp only [List.length_cons] at h; omega)
      · have hk2 : hasKey fs k = false := by
          cases hhk : hasKey fs k
          · rfl
          · exact absurd hhk hk
        simp only [hk2, Bool.not_false, if_true]
        exact ih rest fs (i + 1) mid (by simp only [List.length_cons] at h; omega)

/-- Processing keys whose indices sit after the delimiter position is
the back pass. -/
theorem sortkeysLoop_back (ks : List String) :
    ∀ (fs : List (String × Value)) (i mid : Nat), mid < i →
      sortkeysLoop fs ks i mid = backPass fs ks := by
  induction ks with
  | nil => intro fs i mid _; rfl
  | cons k ks ih =>
      intro fs i mid h
      have h1 : (i == mid) = false := by
        simp only [beq_eq_false_iff_ne, ne_eq]
        omega
      have h2 : decide (i > mid) = true := by
        simp only [decide_eq_true_eq]
        omega
      rw [sortkeysLoop]
      simp only [h1, h2, Bool.false_or, backPass]
      by_cases hk : hasKey fs k = true
      · simp only [hk, Bool.not_true, if_false, if_true]
        exact ih (moveToEnd fs k true) (i + 1) mid (by omega)
      · have hk2 : hasKey fs k = false := by
          cases hhk : hasKey fs k
          · rfl
          · exact absurd hhk hk
        simp only [hk2, Bool.not_false, if_true]
        exact ih fs (i + 1) mid (by omega)

/-- sortkeys is the front pass over the reversed head segment followed
by the back pass over the tail segment. -/
theorem sortkeys_eq_passes (ko : List String) (fs : List (String × Value)) :
    (sortkeys (Node.mk ko fs)).fields =
      backPass (frontPass fs (headOf ko).reverse) (tailOf ko) := by
  unfold sortkeys headOf tailOf
  simp only
  by_cases hm : ko.findIdx (fun k => k == "...") < ko.length
  · have hdel : ko.drop (ko.findIdx (fun k => k == "...")) =
        "..." :: ko.drop (ko.findIdx (fun k => k == "...") + 1) := by
      rw [List.drop_eq_getElem_cons hm]
      have hfound : (ko[ko.findIdx (fun k => k == "...")] == "...") = true :=
        @List.findIdx_getElem _ (fun k => k == "...") ko hm
      have : ko[ko.findIdx (fun k => k == "...")] = "..." := by
        simpa using hfound
      rw [this]
    rw [hdel]
    have hlen : ((ko.take (ko.findIdx (fun k => k == "..."))).reverse).length =
        ko.findIdx (fun k => k == "...") := by
      simp [List.length_take]
      omega
    rw [sortkeysLoop_front ((ko.take (ko.findIdx (fun k => k == "..."))).reverse)
      _ fs 0 _ (by rw [hlen]; omega)]
    rw [hlen, Nat.zero_add]
    rw [sortkeysLoop]
    simp only [beq_self_eq_true, Bool.true_or, if_true]
    exact sortkeysLoop_back _ _ _ _ (by omega)
  · have hml : ko.findIdx (fun k => k == "...") = ko.length := by
      have h2 := @List.findIdx_le_length _ (fun k => k == "...") ko
      omega
    rw [hml, List.take_length, List.drop_length,
        List.drop_eq_nil_of_le (by omega), List.append_nil]
    rw [show sortkeysLoop fs ko.reverse 0 ko.length =
          sortkeysLoop fs (ko.reverse ++ []) 0 ko.length by rw [List.append_nil]]
    rw [sortkeysLoop_front ko.reverse [] fs 0 ko.length (by simp)]
    rfl



/-- nodeLookup reads the value of the found entry. -/
theorem nodeLookup_eq_entryOf (fs : List (String × Value)) (x : String) :
    nodeLookup fs x = (entryOf fs x).map (fun p => p.2) := rfl

/-- A Bool that is not true is false. -/
theorem bool_eq_false {b : Bool} (h : ¬ b = true) : b = false := by
  cases b
  · rfl
  · exact absurd rfl h

/-- Lookup on a cons whose head key matches. -/
theorem nodeLookup_cons_pos {pk : String} {x : String} (pv : Value)
    (t : List (String × Value)) (h : (pk == x) = true) :
    nodeLookup ((pk, pv) :: t) x = some pv := by
  simp [nodeLookup, List.find?, h]

/-- Lookup on a cons whose head key differs. -/
theorem nodeLookup_cons_neg {pk : String} {x : String} (pv : Value)
    (t : List (String × Value)) (h : (pk == x) = false) :
    nodeLookup ((pk, pv) :: t) x = nodeLookup t x := by
  simp [nodeLookup, List.find?, h]

/-- sortkeys does not change which entry a key finds. -/
theorem entryOf_sortkeys (ko : List String) (fs : List (String × Value))
    (x : String) : entryOf (sortkeys (Node.mk ko fs)).fields x = entryOf fs x := by
  rw [sortkeys_eq_passes, entryOf_backPass, entryOf_frontPass]

/-- sortkeys permutes the entries. -/
theorem sortkeys_fields_perm (ko : List String) (fs : List (String × Value)) :
    ((sortkeys (Node.mk ko fs)).fields).Perm fs := by
  rw [sortkeys_eq_passes]
  exact (backPass_perm _ _).trans (frontPass_perm _ _)

/-- hasKey is findability of an entry. -/
theorem hasKey_eq_isSome (fs : List (String × Value)) (x : String) :
    hasKey fs x = (entryOf fs x).isSome := by
  cases h : entryOf fs x with
  | none =>
      simp only [Option.isSome_none, hasKey, List.any_eq_false]
      intro p hp
      have := List.find?_eq_none.mp h p hp
      simpa using this
  | some p =>
      simp only [Option.isSome_some, hasKey, List.any_eq_true]
      refine ⟨p, List.mem_of_find?_eq_some h, ?_⟩
      simpa using entryOf_key h

/-- Replacing the value stored at a present key makes lookup of that
key return the new value. -/
theorem lookup_setvalue_self (fs : List (String × Value)) (k : String)
    (v : Value) (h : hasKey fs k = true) :
    nodeLookup (fs.map (fun p => if p.1 == k then (p.1, v) else p)) k = some v := by
  induction fs with
  | nil => simp [hasKey] at h
  | cons p t ih =>
      obtain ⟨pk, pv⟩ := p
      rw [List.map_cons]
      by_cases hk : (pk == k) = true
      · simp only [if_pos hk]
        exact nodeLookup_cons_pos v _ hk
      · have hk2 : (pk == k) = false := bool_eq_false hk
        have ht : hasKey t k = true := by
          simp only [hasKey, List.any_cons, hk2, Bool.false_or] at h
          exact h
        simp only [hk2, Bool.false_eq_true, if_false]
        rw [nodeLookup_cons_neg pv _ hk2]
        exact ih ht

/-- Replacing the value stored at one key leaves lookups of other keys
unchanged. -/
theorem lookup_setvalue_other (fs : List (String × Value)) (k x : String)
    (v : Value) (hx : x ≠ k) :
    nodeLookup (fs.map (fun p => if p.1 == k then (p.1, v) else p)) x =
      nodeLookup fs x := by
  induction fs with
  | nil => rfl
  | cons p t ih =>
      obtain ⟨pk, pv⟩ := p
      rw [List.map_cons]
      by_cases hk : (pk == k) = true
      · have hp1 : pk = k := by simpa using hk
        have hpx : (pk == x) = false := by
          rw [hp1]
          simp only [beq_eq_false_iff_ne, ne_eq]
          exact fun hh => hx hh.symm
        simp only [if_pos hk]
        rw [nodeLookup_cons_neg v _ hpx, nodeLookup_cons_neg pv _ hpx]
        exact ih
      · have hk2 : (pk == k) = false := bool_eq_false hk
        simp only [hk2, Bool.false_eq_true, if_false]
        by_cases hpx : (pk == x) = true
        · rw [nodeLookup_cons_pos pv _ hpx, nodeLookup_cons_pos pv _ hpx]
        · have hpx2 := bool_eq_false hpx
          rw [nodeLookup_cons_neg pv _ hpx2, nodeLookup_cons_neg pv _ hpx2]
          exact ih

/-- Applying a function to the value stored at a present key maps the
lookup of that key. -/
theorem lookup_applyvalue_self (fs : List (String × Value)) (k : String)
    (g : Value → Value) :
    nodeLookup (fs.map (fun p => if p.1 == k then (p.1, g p.2) else p)) k =
      (nodeLookup fs k).map g := by
  induction fs with
  | nil => rfl
  | cons p t ih =>
      obtain ⟨pk, pv⟩ := p
      rw [List.map_cons]
      by_cases hk : (pk == k) = true
      · simp only [if_pos hk]
        rw [nodeLookup_cons_pos (g pv) _ hk, nodeLookup_cons_pos pv _ hk]
        rfl
      · have hk2 : (pk == k) = false := bool_eq_false hk
        simp only [hk2, Bool.false_eq_true, if_false]
        rw [nodeLookup_cons_neg pv _ hk2, nodeLookup_cons_neg pv _ hk2]
        exact ih

/-- Applying a function to the value stored at one key leaves lookups
of other keys unchanged. -/
theorem lookup_applyvalue_other (fs : List (String × Value)) (k x : String)
    (g : Value → Value) (hx : x ≠ k) :
    nodeLookup (fs.map (fun p => if p.1 == k then (p.1, g p.2) else p)) x =
      nodeLookup fs x := by
  induction fs with
  | nil => rfl
  | cons p t ih =>
      obtain ⟨pk, pv⟩ := p
      rw [List.map_cons]
      by_cases hk : (pk == k) = true
      · have hp1 : pk = k := by simpa using hk
        have hpx : (pk == x) = false := by
          rw [hp1]
          simp only [beq_eq_false_iff_ne, ne_eq]
          exact fun hh => hx hh.symm
        simp only [if_pos hk]
        rw [nodeLookup_cons_neg (g pv) _ hpx, nodeLookup_cons_neg pv _ hpx]
        exact ih
      · have hk2 : (pk == k) = false := bool_eq_false hk
        simp only [hk2, Bool.false_eq_true, if_false]
        by_cases hpx : (pk == x) = true
        · rw [nodeLookup_cons_pos pv _ hpx, nodeLookup_cons_pos pv _ hpx]
        · have hpx2 := bool_eq_false hpx
          rw [nodeLookup_cons_neg pv _ hpx2, nodeLookup_cons_neg pv _ hpx2]
          exact ih

/-- Lookup of the key just set returns the new value. -/
theorem setItem_lookup_self (n : Node) (k : String) (v : Value) :
    nodeLookup (n.setItem k v).fields k = some v := by
  unfold Node.setItem
  by_cases h : hasKey n.fields k = true
  · rw [if_pos h]
    exact lookup_setvalue_self n.fields k v h
  · have h2 : hasKey n.fields k = false := bool_eq_false h
    rw [if_neg (by rw [h2]; exact Bool.false_ne_true)]
    rw [nodeLookup_eq_entryOf, entryOf_sortkeys, entryOf_append]
    have hnone : entryOf n.fields k = none := by
      cases he : entryOf n.fields k with
      | none => rfl
      | some p =>
          rw [hasKey_eq_isSome, he] at h2
          exact absurd h2 (by simp)
    rw [hnone]
    simp [entryOf, List.find?]

/-- Lookup of a different key is unchanged by a set. -/
theorem setItem_lookup_other (n : Node) (k x : String) (v : Value)
    (hx : x ≠ k) :
    nodeLookup (n.setItem k v).fields x = nodeLookup n.fields x := by
  unfold Node.setItem
  by_cases h : hasKey n.fields k = true
  · rw [if_pos h]
    exact lookup_setvalue_other n.fields k x v hx
  · have h2 : hasKey n.fields k = false := bool_eq_false h
    rw [if_neg (by rw [h2]; exact Bool.false_ne_true)]
    rw [nodeLookup_eq_entryOf, entryOf_sortkeys, entryOf_append]
    have hone : entryOf [(k, v)] x = none := by
      apply entryOf_eq_none
      intro p hp
      simp only [List.mem_singleton] at hp
      rw [hp]
      exact fun hh => hx hh.symm
    rw [hone]
    cases he : entryOf n.fields x <;>
      simp [nodeLookup_eq_entryOf, he]



/-- Filtering preserves key uniqueness. -/
theorem keysNodup_filter (q : String × Value → Bool)
    (fs : List (String × Value)) (h : keysNodup fs) :
    keysNodup (fs.filter q) := by
  unfold keysNodup at *
  exact ((List.filter_sublist fs).map Prod.fst).nodup h

/-- Key uniqueness transfers along a permutation. -/
theorem keysNodup_perm {fs1 fs2 : List (String × Value)}
    (hp : fs1.Perm fs2) (h : keysNodup fs2) : keysNodup fs1 :=
  ((hp.map Prod.fst).nodup_iff).mpr h

/-- A set preserves key uniqueness. -/
theorem keysNodup_setItem (n : Node) (k : String) (v : Value)
    (h : keysNodup n.fields) : keysNodup (n.setItem k v).fields := by
  unfold Node.setItem
  by_cases hk : hasKey n.fields k = true
  · rw [if_pos hk]
    unfold keysNodup at *
    have heq : (n.fields.map (fun p => if p.1 == k then (p.1, v) else p)).map
        Prod.fst = n.fields.map Prod.fst := by
      rw [List.map_map]
      apply List.map_congr_left
      intro p _
      by_cases hpk : (p.1 == k) = true
      · simp [Function.comp, hpk]
      · simp [Function.comp, bool_eq_false hpk]
    rw [heq]
    exact h
  · have hk2 := bool_eq_false hk
    rw [if_neg (by rw [hk2]; exact Bool.false_ne_true)]
    apply keysNodup_perm (sortkeys_fields_perm _ _)
    unfold keysNodup at *
    rw [List.map_append]
    have hkn : k ∉ n.fields.map Prod.fst := by
      intro hmem
      obtain ⟨p, hp, hpk⟩ := List.mem_map.mp hmem
      have hk3 : (n.fields.any fun p => p.1 == k) = false := hk2
      have hall := List.any_eq_false.mp hk3
      exact (hall p hp) (by simpa using hpk)
    simp only [List.map_cons, List.map_nil]
    exact List.Nodup.append h (List.nodup_singleton k)
      (by simpa [List.disjoint_singleton] using hkn)

/-- Lookup through the None-deletion filter of init: under unique keys
the stored value survives exactly when it is not None. -/
theorem lookup_filter_not_isNone (fs : List (String × Value)) (x : String)
    (hnd : keysNodup fs) :
    nodeLookup (fs.filter (fun p => !p.2.isNone)) x =
      (nodeLookup fs x).bind
        (fun v => if v.isNone then none else some v) := by
  induction fs with
  | nil => rfl
  | cons p t ih =>
      obtain ⟨pk, pv⟩ := p
      have hnd0 : (pk :: t.map Prod.fst).Nodup := by
        simpa [keysNodup] using hnd
      have hnd2 : keysNodup t := by
        unfold keysNodup
        exact (List.nodup_cons.mp hnd0).2
      have hpknot : pk ∉ t.map Prod.fst := (List.nodup_cons.mp hnd0).1
      rw [List.filter_cons]
      by_cases hx : (pk == x) = true
      · have hpkx : pk = x := by simpa using hx
        cases hv : pv.isNone with
        | false =>
            simp only [hv, Bool.not_false, if_true]
            rw [nodeLookup_cons_pos pv _ hx, nodeLookup_cons_pos pv t hx]
            simp [hv]
        | true =>
            simp only [hv, Bool.not_true, Bool.false_eq_true, if_false]
            rw [nodeLookup_cons_pos pv t hx]
            have hnone : entryOf t x = none := by
              apply entryOf_eq_none
              intro q hq hqx
              exact hpknot (by rw [hpkx]; exact List.mem_map.mpr ⟨q, hq, hqx⟩)
            have hnone2 : entryOf (t.filter (fun p => !p.2.isNone)) x = none := by
              apply entryOf_eq_none
              intro q hq hqx
              have hmem := (List.mem_filter.mp hq).1
              exact hpknot (by rw [hpkx]; exact List.mem_map.mpr ⟨q, hmem, hqx⟩)
            rw [nodeLookup_eq_entryOf, hnone2]
            simp [hv]
      · have hx2 := bool_eq_false hx
        cases hq : (!pv.isNone) with
        | true =>
            simp only [hq, if_true]
            rw [nodeLookup_cons_neg pv _ hx2, nodeLookup_cons_neg pv t hx2]
            exact ih hnd2
        | false =>
            simp only [hq, Bool.false_eq_true, if_false]
            rw [nodeLookup_cons_neg pv t hx2]
            exact ih hnd2

/-- Adding a list item under a fresh key stores exactly that list. -/
theorem addItem_fresh_list (n : Node) (k : String) (L : List Value)
    (h : hasKey n.fields k = false) :
    nodeLookup ((n.addItem k (some (Value.vlist L)))).fields k =
      some (Value.vlist L) := by
  unfold Node.addItem
  simp only [h, Bool.false_eq_true, if_false]
  have h1 := lookup_applyvalue_self (n.setItem k (Value.vlist [])).fields k
    (fun w => appendTo w (Value.vlist L))
  rw [setItem_lookup_self] at h1
  exact h1.trans (by simp [appendTo])

/-- add_item leaves lookups of other keys unchanged. -/
theorem addItem_lookup_other (n : Node) (k x : String) (v : Value)
    (hx : x ≠ k) :
    nodeLookup ((n.addItem k (some v))).fields x = nodeLookup n.fields x := by
  unfold Node.addItem
  by_cases h : hasKey n.fields k = true
  · simp only [h, if_true]
    exact lookup_applyvalue_other n.fields k x (fun w => appendTo w v) hx
  · have h2 := bool_eq_false h
    simp only [h2, Bool.false_eq_true, if_false]
    have h1 := lookup_applyvalue_other (n.setItem k (Value.vlist [])).fields k x
      (fun w => appendTo w v) hx
    exact h1.trans (setItem_lookup_other n k x _ hx)





/-- The empty mapping has unique keys. -/
theorem keysNodup_nil : keysNodup ([] : List (String × Value)) := by
  simp [keysNodup]

/-- The fields of a fresh View are the title and icon sets followed by
the None deletion. -/
theorem viewInit_fields_eq (a : Attributes) :
    (viewInit a).fields =
      (((Node.mk viewKeyOrder []).setItem "title"
        (optS a.friendly_name)).setItem "icon" (optS a.icon)).fields.filter
        (fun p => !p.2.isNone) := by
  simp only [viewInit, initNode, List.foldl]

/-- A fresh View carries no cards key. -/
theorem viewInit_lookup_cards (a : Attributes) :
    nodeLookup (viewInit a).fields "cards" = none := by
  have hnd : keysNodup (((Node.mk viewKeyOrder []).setItem "title"
      (optS a.friendly_name)).setItem "icon" (optS a.icon)).fields :=
    keysNodup_setItem _ _ _ (keysNodup_setItem _ _ _ keysNodup_nil)
  rw [viewInit_fields_eq, lookup_filter_not_isNone _ _ hnd]
  rw [setItem_lookup_other _ _ _ _ (by decide)]
  rw [setItem_lookup_other _ _ _ _ (by decide)]
  rfl

/-- Looking up the cards field after add_card on a fresh view returns
exactly the added list. -/
theorem viewCards_lookup (a : Attributes) (L : List Value) :
    nodeLookup ((viewInit a).addItem "cards"
        (some (Value.vlist L))).fields "cards" = some (Value.vlist L) := by
  apply addItem_fresh_list
  rw [hasKey_eq_isSome]
  have h0 := viewInit_lookup_cards a
  rw [nodeLookup_eq_entryOf] at h0
  cases he : entryOf (viewInit a).fields "cards" with
  | none => rfl
  | some p => rw [he] at h0; exact absurd h0 (by simp)

/-- The fields of the primary entities card as a set chain. -/
theorem primaryEntitiesCard_fields_eq (a : Attributes) (ns : List String) :
    (primaryEntitiesCard a ns).fields =
      ((((Node.mk entitiesKeyOrder
        [("type", Value.vs "entities")]).setItem "title"
        (optS a.friendly_name)).setItem "show_header_toggle"
        (Value.vb (a.control != some "hidden"))).setItem "entities"
        (vstrs ns)).fields.filter (fun p => !p.2.isNone) := by
  simp only [primaryEntitiesCard, initNode, List.foldl]

/-- Field content of the primary entities card of a group: title from
the friendly name (absent when the attribute is absent), the header
toggle from the control attribute, the plain member identifiers. -/
theorem primaryEntitiesCard_lookups (a : Attributes) (ns : List String) :
    nodeLookup (primaryEntitiesCard a ns).fields "type" =
      some (Value.vs "entities") ∧
    nodeLookup (primaryEntitiesCard a ns).fields "title" =
      a.friendly_name.map Value.vs ∧
    nodeLookup (primaryEntitiesCard a ns).fields "show_header_toggle" =
      some (Value.vb (a.control != some "hidden")) ∧
    nodeLookup (primaryEntitiesCard a ns).fields "entities" =
      some (vstrs ns) := by
  have hnd : keysNodup ((((Node.mk entitiesKeyOrder
      [("type", Value.vs "entities")]).setItem "title"
      (optS a.friendly_name)).setItem "show_header_toggle"
      (Value.vb (a.control != some "hidden"))).setItem "entities"
      (vstrs ns)).fields :=
    keysNodup_setItem _ _ _ (keysNodup_setItem _ _ _
      (keysNodup_setItem _ _ _ (by simp [keysNodup])))
  refine ⟨?_, ?_, ?_, ?_⟩
  · rw [primaryEntitiesCard_fields_eq, lookup_filter_not_isNone _ _ hnd]
    rw [setItem_lookup_other _ _ _ _ (by decide)]
    rw [setItem_lookup_other _ _ _ _ (by decide)]
    rw [setItem_lookup_other _ _ _ _ (by decide)]
    rfl
  · rw [primaryEntitiesCard_fields_eq, lookup_filter_not_isNone _ _ hnd]
    rw [setItem_lookup_other _ _ _ _ (by decide)]
    rw [setItem_lookup_other _ _ _ _ (by decide)]
    rw [setItem_lookup_self]
    cases a.friendly_name <;> simp [optS, Value.isNone]
  · rw [primaryEntitiesCard_fields_eq, lookup_filter_not_isNone _ _ hnd]
    rw [setItem_lookup_other _ _ _ _ (by decide)]
    rw [setItem_lookup_self]
    rfl
  · rw [primaryEntitiesCard_fields_eq, lookup_filter_not_isNone _ _ hnd]
    rw [setItem_lookup_self]
    simp [vstrs, Value.isNone]

/-- The fields of the history-graph card as a set chain. -/
theorem historyGraphCard_fields_eq (a : Attributes) (ids : List String) :
    (fromHistoryGraphConfig a ids).fields =
      (((((Node.mk historyGraphKeyOrder
        [("type", Value.vs "history-graph")]).setItem "title"
        (optS a.friendly_name)).setItem "hours_to_show"
        (optN a.hours_to_show)).setItem "refresh_interval"
        (optN a.refresh)).setItem "entities" (vstrs ids)).fields.filter
        (fun p => !p.2.isNone) := by
  simp only [fromHistoryGraphConfig, initNode, List.foldl]

/-- The history-graph card copies the raw membership list into its
entities field. -/
theorem historyGraphCard_lookup_entities (a : Attributes) (ids : List String) :
    nodeLookup (fromHistoryGraphConfig a ids).fields "entities" =
      some (vstrs ids) := by
  have hnd : keysNodup (((((Node.mk historyGraphKeyOrder
      [("type", Value.vs "history-graph")]).setItem "title"
      (optS a.friendly_name)).setItem "hours_to_show"
      (optN a.hours_to_show)).setItem "refresh_interval"
      (optN a.refresh)).setItem "entities" (vstrs ids)).fields :=
    keysNodup_setItem _ _ _ (keysNodup_setItem _ _ _ (keysNodup_setItem _ _ _
      (keysNodup_setItem _ _ _ (by simp [keysNodup]))))
  rw [historyGraphCard_fields_eq, lookup_filter_not_isNone _ _ hnd]
  rw [setItem_lookup_self]
  simp [vstrs, Value.isNone]

end Lovelace

namespace Lovelace

/-- The nocards accumulator of the member loop holds exactly the
identifiers of the members whose resolution yields no card, and the
cards accumulator the concatenation of the member card lists, both in
encounter order. -/
theorem memberFold_spec : ∀ (l : GList) (cs : List Node) (ns : List String),
    memberFold l = some (cs, ns) →
    cs = (gToList l).flatMap (fun e => cardsOf (cardFromConfig e)) ∧
    ns = ((gToList l).filter (fun e => isNocard (cardFromConfig e))).map
      GEntity.entity_id
  | GList.nil => by
      intro cs ns h
      rw [memberFold] at h
      simp only [Option.some.injEq, Prod.mk.injEq] at h
      simp [gToList, ← h.1, ← h.2]
  | GList.cons e rest => by
      intro cs ns h
      have ih := memberFold_spec rest
      rw [memberFold] at h
      rcases hc : cardFromConfig e with _ | r
      · rw [hc] at h; exact absurd h (by simp)
      · rw [hc] at h
        rcases hm : memberFold rest with _ | ⟨cs1, ns1⟩
        · rw [hm] at h; exact absurd h (by simp)
        · rw [hm] at h
          obtain ⟨h1, h2⟩ := ih cs1 ns1 hm
          rcases r with _ | c | lcs
          · simp only [Option.some.injEq, Prod.mk.injEq] at h
            simp [gToList, isNocard, cardsOf, hc, ← h.1, ← h.2, h1, h2]
          · simp only [Option.some.injEq, Prod.mk.injEq] at h
            simp [gToList, isNocard, cardsOf, hc, ← h.1, ← h.2, h1, h2]
          · simp only [Option.some.injEq, Prod.mk.injEq] at h
            simp [gToList, isNocard, cardsOf, hc, ← h.1, ← h.2, h1, h2]
termination_by structural l => l

/-- Every member of a successfully folded member list resolved without
an exception. -/
theorem memberFold_members_ok : ∀ (l : GList) (p : List Node × List String),
    memberFold l = some p →
    ∀ e, e ∈ gToList l → (cardFromConfig e).isSome = true
  | GList.nil => by intro p _ e he; simp [gToList] at he
  | GList.cons e0 rest => by
      intro p h e he
      have ih := memberFold_members_ok rest
      rw [memberFold] at h
      rcases hc : cardFromConfig e0 with _ | r
      · rw [hc] at h; exact absurd h (by simp)
      · rw [hc] at h
        rcases hm : memberFold rest with _ | q
        · rw [hm] at h; rcases r with _ | c | lcs <;> exact absurd h (by simp)
        · simp only [gToList, List.mem_cons] at he
          rcases he with he | he
          · rw [he, hc]; rfl
          · exact ih q hm e he
termination_by structural l => l

/-- The synthesized entities card carries exactly the type tag and the
identifier list. -/
theorem synthEntitiesCard_fields (ns : List String) :
    (synthEntitiesCard ns).fields =
      [("type", Value.vs "entities"), ("entities", vstrs ns)] := rfl

end Lovelace

namespace Lovelace

theorem char_toNat_ofNat_valid {n : Nat} (h : n.isValidChar) :
    (Char.ofNat n).toNat = n := by
  unfold Char.ofNat
  rw [dif_pos h]
  rfl

theorem char_isAlpha_iff (c : Char) :
    c.isAlpha = true ↔
      (65 ≤ c.toNat ∧ c.toNat ≤ 90) ∨ (97 ≤ c.toNat ∧ c.toNat ≤ 122) := by
  simp [Char.isAlpha, Char.isUpper, Char.isLower, UInt32.le_def,
    BitVec.le_def, Char.toNat, UInt32.toNat]

theorem char_toUpper_toNat (c : Char) :
    (Char.toUpper c).toNat =
      if 97 ≤ c.toNat ∧ c.toNat ≤ 122 then c.toNat - 32 else c.toNat := by
  by_cases h : 97 ≤ c.toNat ∧ c.toNat ≤ 122
  · rw [if_pos h]
    unfold Char.toUpper
    rw [if_pos h]
    exact char_toNat_ofNat_valid (Or.inl (by omega))
  · rw [if_neg h]
    unfold Char.toUpper
    rw [if_neg h]

theorem char_toLower_toNat (c : Char) :
    (Char.toLower c).toNat =
      if 65 ≤ c.toNat ∧ c.toNat ≤ 90 then c.toNat + 32 else c.toNat := by
  by_cases h : 65 ≤ c.toNat ∧ c.toNat ≤ 90
  · rw [if_pos h]
    unfold Char.toLower
    rw [if_pos h]
    exact char_toNat_ofNat_valid (Or.inl (by omega))
  · rw [if_neg h]
    unfold Char.toLower
    rw [if_neg h]

theorem char_toUpper_eq_self (c : Char)
    (h : ¬(97 ≤ c.toNat ∧ c.toNat ≤ 122)) : Char.toUpper c = c := by
  unfold Char.toUpper
  rw [if_neg h]

theorem char_toLower_eq_self (c : Char)
    (h : ¬(65 ≤ c.toNat ∧ c.toNat ≤ 90)) : Char.toLower c = c := by
  unfold Char.toLower
  rw [if_neg h]

theorem char_toUpper_idem (c : Char) :
    (Char.toUpper c).toUpper = Char.toUpper c := by
  by_cases h : 97 ≤ c.toNat ∧ c.toNat ≤ 122
  · apply char_toUpper_eq_self
    rw [char_toUpper_toNat, if_pos h]
    omega
  · rw [char_toUpper_eq_self c h]
    exact char_toUpper_eq_self c h

theorem char_toLower_idem (c : Char) :
    (Char.toLower c).toLower = Char.toLower c := by
  by_cases h : 65 ≤ c.toNat ∧ c.toNat ≤ 90
  · apply char_toLower_eq_self
    rw [char_toLower_toNat, if_pos h]
    omega
  · rw [char_toLower_eq_self c h]
    exact char_toLower_eq_self c h

theorem char_isAlpha_toUpper (c : Char) (h : c.isAlpha = true) :
    (Char.toUpper c).isAlpha = true := by
  rw [char_isAlpha_iff] at h ⊢
  rw [char_toUpper_toNat]
  by_cases hc : 97 ≤ c.toNat ∧ c.toNat ≤ 122
  · rw [if_pos hc]; omega
  · rw [if_neg hc]; omega

theorem char_isAlpha_toLower (c : Char) (h : c.isAlpha = true) :
    (Char.toLower c).isAlpha = true := by
  rw [char_isAlpha_iff] at h ⊢
  rw [char_toLower_toNat]
  by_cases hc : 65 ≤ c.toNat ∧ c.toNat ≤ 90
  · rw [if_pos hc]; omega
  · rw [if_neg hc]; omega

theorem char_eq_of_toNat_eq {c d : Char} (h : c.toNat = d.toNat) : c = d := by
  rw [← Char.ofNat_toNat c, ← Char.ofNat_toNat d, h]

theorem char_toUpper_ne_underscore (c : Char) (h : c ≠ '_') :
    Char.toUpper c ≠ '_' := by
  intro he
  have ht := congrArg Char.toNat he
  rw [char_toUpper_toNat] at ht
  by_cases hc : 97 ≤ c.toNat ∧ c.toNat ≤ 122
  · rw [if_pos hc] at ht
    have : ('_' : Char).toNat = 95 := by decide
    omega
  · rw [if_neg hc] at ht
    exact h (char_eq_of_toNat_eq ht)

theorem char_toLower_ne_underscore (c : Char) (h : c ≠ '_') :
    Char.toLower c ≠ '_' := by
  intro he
  have ht := congrArg Char.toNat he
  rw [char_toLower_toNat] at ht
  by_cases hc : 65 ≤ c.toNat ∧ c.toNat ≤ 90
  · rw [if_pos hc] at ht
    have : ('_' : Char).toNat = 95 := by decide
    omega
  · rw [if_neg hc] at ht
    exact h (char_eq_of_toNat_eq ht)



/-- The title scan is idempotent. -/
theorem titleAux_idem (l : List Char) :
    ∀ b, titleAux (titleAux l b) b = titleAux l b := by
  induction l with
  | nil => intro b; rfl
  | cons c rest ih =>
      intro b
      by_cases ha : c.isAlpha = true
      · cases b
        · rw [titleAux, if_pos ha]
          simp only [Bool.false_eq_true, if_false]
          rw [titleAux, if_pos (char_isAlpha_toUpper c ha)]
          simp only [Bool.false_eq_true, if_false]
          rw [char_toUpper_idem, ih true]
        · rw [titleAux, if_pos ha]
          simp only [eq_self_iff_true, if_true]
          rw [titleAux, if_pos (char_isAlpha_toLower c ha)]
          simp only [eq_self_iff_true, if_true]
          rw [char_toLower_idem, ih true]
      · rw [titleAux, if_neg ha]
        rw [titleAux, if_neg ha]
        rw [ih false]

/-- The underscore replacement never produces an underscore. -/
theorem repl_ne_underscore (c : Char) :
    (if c = '_' then ' ' else c) ≠ '_' := by
  by_cases h : c = '_' <;> simp [h]

/-- The title scan produces no underscore from an underscore-free
input. -/
theorem titleAux_no_underscore (l : List Char) :
    ∀ b, (∀ c ∈ l, c ≠ '_') → ∀ c ∈ titleAux l b, c ≠ '_' := by
  induction l with
  | nil => intro b _ c hc; simp [titleAux] at hc
  | cons a rest ih =>
      intro b h c hc
      rw [titleAux] at hc
      by_cases ha : a.isAlpha = true
      · rw [if_pos ha] at hc
        rcases List.mem_cons.mp hc with hc | hc
        · rw [hc]
          cases b
          · simp only [Bool.false_eq_true, if_false]
            exact char_toUpper_ne_underscore a (h a (by simp))
          · simp only [if_true]
            exact char_toLower_ne_underscore a (h a (by simp))
        · exact ih true (fun d hd => h d (by simp [hd])) c hc
      · rw [if_neg ha] at hc
        rcases List.mem_cons.mp hc with hc | hc
        · rw [hc]; exact h a (by simp)
        · exact ih false (fun d hd => h d (by simp [hd])) c hc

/-- Replacing underscores in an underscore-free list is the identity. -/
theorem map_repl_eq_self (l : List Char) (h : ∀ c ∈ l, c ≠ '_') :
    l.map (fun c => if c = '_' then ' ' else c) = l := by
  conv_rhs => rw [← List.map_id l]
  apply List.map_congr_left
  intro a ha
  show (if a = '_' then ' ' else a) = a
  rw [if_neg (h a ha)]

/-- Display-name synthesis is idempotent. -/
theorem synth_idem (s : String) : synth (synth s) = synth s := by
  unfold synth pyTitle underscoreToSpace
  congr 1
  have hnou : ∀ c ∈ (titleAux (s.data.map
      (fun c => if c = '_' then ' ' else c)) false), c ≠ '_' := by
    apply titleAux_no_underscore
    intro c hc
    obtain ⟨a, _, ha⟩ := List.mem_map.mp hc
    rw [← ha]
    exact repl_ne_underscore a
  show titleAux ((titleAux (s.data.map
      (fun c => if c = '_' then ' ' else c)) false).map
      (fun c => if c = '_' then ' ' else c)) false =
    titleAux (s.data.map (fun c => if c = '_' then ' ' else c)) false
  rw [map_repl_eq_self _ hnou]
  exact titleAux_idem _ false

end Lovelace

namespace Lovelace

/-- Under unique keys the entries matching a key are exactly the found
entry. -/
theorem filter_beq_nodup (fs : List (String × Value)) (k : String)
    (hnd : keysNodup fs) :
    fs.filter (fun p => p.1 == k) = (entryOf fs k).toList := by
  induction fs with
  | nil => rfl
  | cons p t ih =>
      obtain ⟨pk, pv⟩ := p
      have hnd0 : (pk :: t.map Prod.fst).Nodup := by simpa [keysNodup] using hnd
      have hnd2 : keysNodup t := (List.nodup_cons.mp hnd0).2
      have hpknot : pk ∉ t.map Prod.fst := (List.nodup_cons.mp hnd0).1
      rw [List.filter_cons]
      by_cases hk : (pk == k) = true
      · have hpk : pk = k := by simpa using hk
        simp only [hk, if_true]
        have he : entryOf ((pk, pv) :: t) k = some (pk, pv) := by
          simp [entryOf, List.find?, hk]
        rw [he]
        have ht : t.filter (fun p => p.1 == k) = [] := by
          rw [List.filter_eq_nil_iff]
          intro q hq hqk
          apply hpknot
          rw [hpk]
          have : q.1 = k := by simpa using hqk
          rw [← this]
          exact List.mem_map.mpr ⟨q, hq, rfl⟩
        rw [ht]
        rfl
      · have hk2 := bool_eq_false hk
        simp only [hk2, Bool.false_eq_true, if_false]
        have he : entryOf ((pk, pv) :: t) k = entryOf t k := by
          simp [entryOf, List.find?, hk2]
        rw [he]
        exact ih hnd2

/-- The front pass sorts the present processed keys to the front, in
reverse processing order, leaving the other entries in place. -/
theorem frontPass_spec (ks : List String) :
    ∀ (fs : List (String × Value)), ks.Nodup → keysNodup fs →
      frontPass fs ks =
        ks.reverse.filterMap (entryOf fs) ++
          fs.filter (fun p => !ks.contains p.1) := by
  induction ks with
  | nil => intro fs _ _; simp [frontPass]
  | cons k ks ih =>
      intro fs hks hnd
      obtain ⟨hknotin, hks2⟩ := List.nodup_cons.mp hks
      rw [frontPass]
      have hstep : ∀ (fs1 : List (String × Value)), keysNodup fs1 →
          (∀ x, entryOf fs1 x = entryOf fs x) →
          fs1.filter (fun p => !ks.contains p.1) =
            (fs.filter (fun p => p.1 == k)).filter (fun p => !ks.contains p.1)
              ++ (fs.filter (fun p => p.1 != k)).filter
                  (fun p => !ks.contains p.1) →
          frontPass fs1 ks =
            (ks.reverse.filterMap (entryOf fs) ++ (entryOf fs k).toList) ++
              fs.filter (fun p => !(k :: ks).contains p.1) := by
        intro fs1 hnd1 hent hfil
        rw [ih fs1 hks2 hnd1]
        rw [List.filterMap_congr (fun x _ => hent x)]
        rw [hfil]
        have hentf : (fs.filter (fun p => p.1 == k)).filter
            (fun p => !ks.contains p.1) = (entryOf fs k).toList := by
          rw [← filter_beq_nodup fs k hnd]
          apply List.filter_eq_self.mpr
          intro p hp
          have hpk : p.1 = k := by simpa using (List.mem_filter.mp hp).2
          simp [hpk, hknotin]
        have hrest : (fs.filter (fun p => p.1 != k)).filter
            (fun p => !ks.contains p.1) =
            fs.filter (fun p => !(k :: ks).contains p.1) := by
          rw [List.filter_filter]
          apply List.filter_congr
          intro p _
          by_cases h1 : p.1 = k <;> by_cases h2 : p.1 ∈ ks <;>
            simp [h1, h2, bne]
        rw [hentf, hrest]
        rw [List.append_assoc]
      by_cases hk : hasKey fs k = true
      · rw [if_pos hk]
        have h1 := hstep (moveToEnd fs k false)
          (keysNodup_perm (moveToEnd_perm fs k false) hnd)
          (fun x => entryOf_moveToEnd fs k x false) ?_
        · rw [h1]
          rw [show (k :: ks).reverse = ks.reverse ++ [k] by simp]
          rw [List.filterMap_append]
          simp only [List.filterMap_cons, List.filterMap_nil]
          cases entryOf fs k <;> rfl
        · rw [show moveToEnd fs k false =
              fs.filter (fun p => p.1 == k) ++ fs.filter (fun p => p.1 != k)
              by simp [moveToEnd]]
          rw [List.filter_append]
      · have hk2 := bool_eq_false hk
        rw [if_neg (by rw [hk2]; exact Bool.false_ne_true)]
        have hnok : entryOf fs k = none := by
          cases he : entryOf fs k with
          | none => rfl
          | some p =>
              rw [hasKey_eq_isSome, he] at hk2
              exact absurd hk2 (by simp)
        have h1 := hstep fs hnd (fun x => rfl) ?_
        · rw [h1]
          rw [show (k :: ks).reverse = ks.reverse ++ [k] by simp]
          rw [List.filterMap_append]
          simp [List.filterMap_cons, hnok]
        · rw [filter_beq_nodup fs k hnd, hnok]
          simp only [Option.toList_none, List.filter_nil, List.nil_append]
          have hall : ∀ p ∈ fs, ¬(p.1 == k) = true := List.find?_eq_none.mp hnok
          have hfs : fs.filter (fun p => p.1 != k) = fs := by
            apply List.filter_eq_self.mpr
            intro p hp
            simpa [bne] using hall p hp
          rw [hfs]

/-- The back pass sends the present processed keys to the back, in
processing order, leaving the other entries in place. -/
theorem backPass_spec (ks : List String) :
    ∀ (fs : List (String × Value)), ks.Nodup → keysNodup fs →
      backPass fs ks =
        fs.filter (fun p => !ks.contains p.1) ++ ks.filterMap (entryOf fs) := by
  induction ks with
  | nil => intro fs _ _; simp [backPass]
  | cons k ks ih =>
      intro fs hks hnd
      obtain ⟨hknotin, hks2⟩ := List.nodup_cons.mp hks
      rw [backPass]
      have hstep : ∀ (fs1 : List (String × Value)), keysNodup fs1 →
          (∀ x, entryOf fs1 x = entryOf fs x) →
          fs1.filter (fun p => !ks.contains p.1) =
            (fs.filter (fun p => p.1 != k)).filter (fun p => !ks.contains p.1)
              ++ (fs.filter (fun p => p.1 == k)).filter
                  (fun p => !ks.contains p.1) →
          backPass fs1 ks =
            fs.filter (fun p => !(k :: ks).contains p.1) ++
              ((entryOf fs k).toList ++ ks.filterMap (entryOf fs)) := by
        intro fs1 hnd1 hent hfil
        rw [ih fs1 hks2 hnd1]
        rw [List.filterMap_congr (fun x _ => hent x)]
        rw [hfil]
        have hentf : (fs.filter (fun p => p.1 == k)).filter
            (fun p => !ks.contains p.1) = (entryOf fs k).toList := by
          rw [← filter_beq_nodup fs k hnd]
          apply List.filter_eq_self.mpr
          intro p hp
          have hpk : p.1 = k := by simpa using (List.mem_filter.mp hp).2
          simp [hpk, hknotin]
        have hrest : (fs.filter (fun p => p.1 != k)).filter
            (fun p => !ks.contains p.1) =
            fs.filter (fun p => !(k :: ks).contains p.1) := by
          rw [List.filter_filter]
          apply List.filter_congr
          intro p _
          by_cases h1 : p.1 = k <;> by_cases h2 : p.1 ∈ ks <;>
            simp [h1, h2, bne]
        rw [hentf, hrest]
        rw [List.append_assoc]
      by_cases hk : hasKey fs k = true
      · rw [if_pos hk]
        have h1 := hstep (moveToEnd fs k true)
          (keysNodup_perm (moveToEnd_perm fs k true) hnd)
          (fun x => entryOf_moveToEnd fs k x true) ?_
        · rw [h1]
          congr 1
          rw [List.filterMap_cons]
          cases entryOf fs k <;> rfl
        · rw [show moveToEnd fs k true =
              fs.filter (fun p => p.1 != k) ++ fs.filter (fun p => p.1 == k)
              by simp [moveToEnd]]
          rw [List.filter_append]
      · have hk2 := bool_eq_false hk
        rw [if_neg (by rw [hk2]; exact Bool.false_ne_true)]
        have hnok : entryOf fs k = none := by
          cases he : entryOf fs k with
          | none => rfl
          | some p =>
              rw [hasKey_eq_isSome, he] at hk2
              exact absurd hk2 (by simp)
        have h1 := hstep fs hnd (fun x => rfl) ?_
        · rw [h1, hnok]
          simp only [Option.toList_none, List.nil_append]
          congr 1
          rw [List.filterMap_cons, hnok]
        · rw [filter_beq_nodup fs k hnd, hnok]
          simp only [Option.toList_none, List.filter_nil, List.append_nil]
          have hall : ∀ p ∈ fs, ¬(p.1 == k) = true := List.find?_eq_none.mp hnok
          have hfs : fs.filter (fun p => p.1 != k) = fs := by
            apply List.filter_eq_self.mpr
            intro p hp
            simpa [bne] using hall p hp
          rw [hfs]

/-- Sorting the keys of a node with unique keys yields the documented
layout: present head keys in schema order, the remaining entries in
first-set order, present tail keys in schema order. -/
theorem sortkeys_spec (ko : List String) (fs : List (String × Value))
    (hko : (headOf ko ++ tailOf ko).Nodup) (hnd : keysNodup fs) :
    (sortkeys (Node.mk ko fs)).fields = specFields ko fs := by
  obtain ⟨hhead, htail, hdisj⟩ := List.nodup_append.mp hko
  rw [sortkeys_eq_passes]
  have hfnd : keysNodup (frontPass fs (headOf ko).reverse) :=
    keysNodup_perm (frontPass_perm _ fs) hnd
  rw [backPass_spec (tailOf ko) _ htail hfnd]
  rw [frontPass_spec (headOf ko).reverse fs (List.nodup_reverse.mpr hhead) hnd]
  rw [List.reverse_reverse]
  have hrev : fs.filter (fun p => !(headOf ko).reverse.contains p.1) =
      fs.filter (fun p => !(headOf ko).contains p.1) := by
    apply List.filter_congr
    intro p _
    simp [List.elem_eq_mem, List.mem_reverse]
  rw [hrev]
  have hAkeys : ∀ p ∈ (headOf ko).filterMap (entryOf fs), p.1 ∈ headOf ko := by
    intro p hp
    obtain ⟨x, hx, he⟩ := List.mem_filterMap.mp hp
    exact (entryOf_key he) ▸ hx
  rw [List.filter_append]
  have hA1 : ((headOf ko).filterMap (entryOf fs)).filter
      (fun p => !(tailOf ko).contains p.1) =
      (headOf ko).filterMap (entryOf fs) := by
    apply List.filter_eq_self.mpr
    intro p hp
    have hnt : p.1 ∉ tailOf ko := fun hmem => hdisj (hAkeys p hp) hmem
    simp [hnt]
  have hB1 : (fs.filter (fun p => !(headOf ko).contains p.1)).filter
      (fun p => !(tailOf ko).contains p.1) =
      fs.filter (fun p =>
        !(headOf ko).contains p.1 && !(tailOf ko).contains p.1) := by
    rw [List.filter_filter]
    apply List.filter_congr
    intro p _
    by_cases h1 : p.1 ∈ headOf ko <;> by_cases h2 : p.1 ∈ tailOf ko <;>
      simp [h1, h2]
  rw [hA1, hB1]
  have hent : ∀ x ∈ tailOf ko,
      entryOf ((headOf ko).filterMap (entryOf fs) ++
        fs.filter (fun p => !(headOf ko).contains p.1)) x = entryOf fs x := by
    intro x hx
    have hxnh : x ∉ headOf ko := fun hmem => hdisj hmem hx
    rw [entryOf_append]
    have hA0 : entryOf ((headOf ko).filterMap (entryOf fs)) x = none := by
      apply entryOf_eq_none
      intro p hp hpx
      exact hxnh (hpx ▸ hAkeys p hp)
    rw [hA0, Option.none_or]
    exact entryOf_filter_keep (fun p hpx => by simp [hpx, hxnh])
  rw [List.filterMap_congr hent]
  simp only [specFields]

/-- Finding a key on a cons whose head key matches. -/
theorem entryOf_cons_pos {pk x : String} (pv : Value)
    (t : List (String × Value)) (h : (pk == x) = true) :
    entryOf ((pk, pv) :: t) x = some (pk, pv) := by
  simp [entryOf, List.find?, h]

/-- Finding a key on a cons whose head key differs. -/
theorem entryOf_cons_neg {pk x : String} (pv : Value)
    (t : List (String × Value)) (h : (pk == x) = false) :
    entryOf ((pk, pv) :: t) x = entryOf t x := by
  simp [entryOf, List.find?, h]

/-- Finding a key in a schema segment built by filterMap of found
entries gives the entry of the underlying list exactly on segment keys. -/
theorem entryOf_filterMap_entryOf (E : List (String × Value)) :
    ∀ (ks : List String) (x : String),
      entryOf (ks.filterMap (entryOf E)) x =
        if x ∈ ks then entryOf E x else none := by
  intro ks
  induction ks with
  | nil => intro x; simp [entryOf]
  | cons k ks ih =>
      intro x
      rw [List.filterMap_cons]
      by_cases hx : x = k
      · subst hx
        cases he : entryOf E x with
        | none =>
            rw [ih x]
            by_cases hxs : x ∈ ks <;> simp [hxs, he]
        | some p =>
            obtain ⟨pk, pv⟩ := p
            have hpk : pk = x := entryOf_key he
            rw [entryOf_cons_pos pv _ (by simp [hpk])]
            simp
      · cases he : entryOf E k with
        | none =>
            rw [ih x]
            simp [List.mem_cons, hx]
        | some p =>
            obtain ⟨pk, pv⟩ := p
            have hpk : pk = k := entryOf_key he
            have hne : (pk == x) = false := by
              rw [hpk]
              exact beq_eq_false_iff_ne.mpr (fun hh => hx hh.symm)
            rw [entryOf_cons_neg pv _ hne]
            rw [ih x]
            simp [List.mem_cons, hx]

/-- The documented layout finds the same entry for every key as the
underlying entry list. -/
theorem entryOf_specFields (ko : List String) (E : List (String × Value))
    (x : String) : entryOf (specFields ko E) x = entryOf E x := by
  unfold specFields
  rw [entryOf_append, entryOf_append]
  rw [entryOf_filterMap_entryOf, entryOf_filterMap_entryOf]
  by_cases hh : x ∈ headOf ko
  · rw [if_pos hh]
    cases he : entryOf E x with
    | some p => rfl
    | none =>
        rw [Option.none_or]
        have hm : entryOf (E.filter (fun p =>
            !(headOf ko).contains p.1 && !(tailOf ko).contains p.1)) x =
            none := by
          apply entryOf_eq_none
          intro p hp hpx
          have h2 := List.find?_eq_none.mp he p (List.mem_of_mem_filter hp)
          exact h2 (by simp [hpx])
        rw [hm, Option.none_or]
        by_cases ht : x ∈ tailOf ko <;> simp [ht]
  · rw [if_neg hh, Option.none_or]
    by_cases ht : x ∈ tailOf ko
    · rw [if_pos ht]
      have hm : entryOf (E.filter (fun p =>
          !(headOf ko).contains p.1 && !(tailOf ko).contains p.1)) x =
          none :=
        entryOf_filter_drop (fun p hpx => by simp [hpx, ht])
      rw [hm, Option.none_or]
    · rw [if_neg ht, Option.or_none]
      exact entryOf_filter_keep (fun p hpx => by simp [hpx, hh, ht])

/-- The middle entries of the documented layout are the middle entries
of the underlying list. -/
theorem specFields_filter_mid (ko : List String)
    (E : List (String × Value)) :
    (specFields ko E).filter (fun p =>
        !(headOf ko).contains p.1 && !(tailOf ko).contains p.1) =
      E.filter (fun p =>
        !(headOf ko).contains p.1 && !(tailOf ko).contains p.1) := by
  unfold specFields
  rw [List.filter_append, List.filter_append]
  have hA : ((headOf ko).filterMap (entryOf E)).filter (fun p =>
      !(headOf ko).contains p.1 && !(tailOf ko).contains p.1) = [] := by
    rw [List.filter_eq_nil_iff]
    intro p hp
    obtain ⟨x, hx, he⟩ := List.mem_filterMap.mp hp
    have hpk : p.1 = x := entryOf_key he
    simp [hpk, hx]
  have hT : ((tailOf ko).filterMap (entryOf E)).filter (fun p =>
      !(headOf ko).contains p.1 && !(tailOf ko).contains p.1) = [] := by
    rw [List.filter_eq_nil_iff]
    intro p hp
    obtain ⟨x, hx, he⟩ := List.mem_filterMap.mp hp
    have hpk : p.1 = x := entryOf_key he
    simp [hpk, hx]
  have hM : (E.filter (fun p =>
      !(headOf ko).contains p.1 && !(tailOf ko).contains p.1)).filter
      (fun p =>
      !(headOf ko).contains p.1 && !(tailOf ko).contains p.1) =
      E.filter (fun p =>
      !(headOf ko).contains p.1 && !(tailOf ko).contains p.1) :=
    List.filter_eq_self.mpr (fun p hp => (List.mem_filter.mp hp).2)
  rw [hA, hM, hT]
  simp

/-- Two entry lists that find the same entries and agree on middle
entries have the same documented layout. -/
theorem specFields_congr (ko : List String) (E F : List (String × Value))
    (hent : ∀ x, entryOf E x = entryOf F x)
    (hmid : E.filter (fun p =>
        !(headOf ko).contains p.1 && !(tailOf ko).contains p.1) =
      F.filter (fun p =>
        !(headOf ko).contains p.1 && !(tailOf ko).contains p.1)) :
    specFields ko E = specFields ko F := by
  unfold specFields
  rw [List.filterMap_congr (fun x _ => hent x), hmid,
    List.filterMap_congr (fun x _ => hent x)]

/-- Re-laying-out an already laid-out prefix changes nothing. -/
theorem specFields_append_left (ko : List String)
    (E X : List (String × Value)) :
    specFields ko (specFields ko E ++ X) = specFields ko (E ++ X) := by
  apply specFields_congr
  · intro x
    rw [entryOf_append, entryOf_append, entryOf_specFields]
  · rw [List.filter_append, List.filter_append, specFields_filter_mid]

/-- Finding a key through a filter, under unique keys: the found entry
survives exactly when it passes the filter. -/
theorem entryOf_filter_nodup (q : String × Value → Bool) :
    ∀ (E : List (String × Value)), keysNodup E → ∀ x,
      entryOf (E.filter q) x =
        (entryOf E x).bind (fun p => if q p then some p else none) := by
  intro E
  induction E with
  | nil => intro _ x; rfl
  | cons p t ih =>
      intro hnd x
      obtain ⟨pk, pv⟩ := p
      have hnd0 : (pk :: t.map Prod.fst).Nodup := by
        simpa [keysNodup] using hnd
      have hnd2 : keysNodup t := (List.nodup_cons.mp hnd0).2
      have hpknot : pk ∉ t.map Prod.fst := (List.nodup_cons.mp hnd0).1
      rw [List.filter_cons]
      by_cases hq : q (pk, pv) = true
      · rw [if_pos hq]
        by_cases hx : (pk == x) = true
        · rw [entryOf_cons_pos pv _ hx, entryOf_cons_pos pv _ hx]
          simp [hq]
        · have hx2 := bool_eq_false hx
          rw [entryOf_cons_neg pv _ hx2, entryOf_cons_neg pv _ hx2]
          exact ih hnd2 x
      · have hq2 := bool_eq_false hq
        simp only [hq2, Bool.false_eq_true, if_false]
        by_cases hx : (pk == x) = true
        · rw [entryOf_cons_pos pv _ hx]
          have hpkx : pk = x := by simpa using hx
          have htx : entryOf (t.filter q) x = none := by
            apply entryOf_eq_none
            intro r hr hrx
            apply hpknot
            rw [hpkx, ← hrx]
            exact List.mem_map.mpr ⟨r, List.mem_of_mem_filter hr, rfl⟩
          rw [htx]
          simp [hq2]
        · have hx2 := bool_eq_false hx
          rw [entryOf_cons_neg pv _ hx2]
          exact ih hnd2 x

/-- Filtering a schema segment commutes with filtering at the find. -/
theorem filter_filterMap_entry (q : String × Value → Bool)
    (E : List (String × Value)) (ks : List String) :
    (ks.filterMap (entryOf E)).filter q =
      ks.filterMap (fun x =>
        (entryOf E x).bind (fun p => if q p then some p else none)) := by
  induction ks with
  | nil => rfl
  | cons k ks ih =>
      simp only [List.filterMap_cons]
      cases he : entryOf E k with
      | none => simpa using ih
      | some p =>
          by_cases hq : q p = true
          · simp [List.filter_cons, hq, ih]
          · simp [List.filter_cons, bool_eq_false hq, ih]

/-- Filtering the documented layout lays out the filtered entries. -/
theorem specFields_filter (ko : List String) (E : List (String × Value))
    (q : String × Value → Bool) (hnd : keysNodup E) :
    (specFields ko E).filter q = specFields ko (E.filter q) := by
  unfold specFields
  rw [List.filter_append, List.filter_append]
  have hA : ((headOf ko).filterMap (entryOf E)).filter q =
      (headOf ko).filterMap (entryOf (E.filter q)) := by
    rw [filter_filterMap_entry]
    apply List.filterMap_congr
    intro x _
    exact (entryOf_filter_nodup q E hnd x).symm
  have hT : ((tailOf ko).filterMap (entryOf E)).filter q =
      (tailOf ko).filterMap (entryOf (E.filter q)) := by
    rw [filter_filterMap_entry]
    apply List.filterMap_congr
    intro x _
    exact (entryOf_filter_nodup q E hnd x).symm
  have hM : (E.filter (fun p =>
      !(headOf ko).contains p.1 && !(tailOf ko).contains p.1)).filter q =
      (E.filter q).filter (fun p =>
      !(headOf ko).contains p.1 && !(tailOf ko).contains p.1) := by
    rw [List.filter_filter, List.filter_filter]
    apply List.filter_congr
    intro p _
    exact Bool.and_comm _ _
  rw [hA, hT, hM]

/-- The documented layout is a permutation of the entry list when the
schema and the entry keys are without repetition. -/
theorem specFields_perm (ko : List String) (E : List (String × Value))
    (hko : (headOf ko ++ tailOf ko).Nodup) (hnd : keysNodup E) :
    (specFields ko E).Perm E := by
  rw [← sortkeys_spec ko E hko hnd]
  exact sortkeys_fields_perm ko E

/-- Setting a fresh key on a laid-out node appends the entry and lays
the result out again. -/
theorem setItem_fresh_spec (ko : List String) (E : List (String × Value))
    (k : String) (v : Value) (hko : (headOf ko ++ tailOf ko).Nodup)
    (hnd : keysNodup E) (hk : entryOf E k = none) :
    (Node.mk ko (specFields ko E)).setItem k v =
      Node.mk ko (specFields ko (E ++ [(k, v)])) := by
  unfold Node.setItem
  have hkF : entryOf (specFields ko E) k = none := by
    rw [entryOf_specFields, hk]
  have hhk : hasKey (specFields ko E) k = false := by
    rw [hasKey_eq_isSome, hkF]
    rfl
  simp only [hhk, Bool.false_eq_true, if_false]
  have hpermF := specFields_perm ko E hko hnd
  have hndF1 : keysNodup (specFields ko E ++ [(k, v)]) := by
    unfold keysNodup
    rw [List.map_append]
    apply List.nodup_append.mpr
    refine ⟨(hpermF.map Prod.fst).nodup_iff.mpr hnd, by simp, ?_⟩
    intro a ha hb
    have ha2 : a ∈ E.map Prod.fst := (hpermF.map Prod.fst).mem_iff.mp ha
    have hak : a = k := by simpa using hb
    obtain ⟨r, hr, hra⟩ := List.mem_map.mp ha2
    exact (List.find?_eq_none.mp hk r hr) (by simp [hra, hak])
  have hsort := sortkeys_spec ko (specFields ko E ++ [(k, v)]) hko hndF1
  rw [show sortkeys (Node.mk ko (specFields ko E ++ [(k, v)])) =
      Node.mk ko ((sortkeys (Node.mk ko
        (specFields ko E ++ [(k, v)]))).fields) from rfl]
  rw [hsort, specFields_append_left]

/-- A run of fresh assignments on a laid-out node appends the new
entries and lays the result out. -/
theorem insertSeq_spec (ko : List String)
    (hko : (headOf ko ++ tailOf ko).Nodup) :
    ∀ (ops : List (String × Value)) (E : List (String × Value)),
      keysNodup E → (ops.map Prod.fst).Nodup →
      (∀ k ∈ ops.map Prod.fst, entryOf E k = none) →
      insertSeq (Node.mk ko (specFields ko E)) ops =
        Node.mk ko (specFields ko (E ++ ops)) := by
  intro ops
  induction ops with
  | nil =>
      intro E _ _ _
      rw [List.append_nil]
      rfl
  | cons p ops ih =>
      intro E hnd hopnd hfresh
      obtain ⟨k, v⟩ := p
      have hkE : entryOf E k = none := hfresh k (by simp)
      have hknotops : k ∉ ops.map Prod.fst :=
        (List.nodup_cons.mp (by simpa using hopnd)).1
      have hopnd1 : (ops.map Prod.fst).Nodup :=
        (List.nodup_cons.mp (by simpa using hopnd)).2
      have hnd1 : keysNodup (E ++ [(k, v)]) := by
        unfold keysNodup
        rw [List.map_append]
        apply List.nodup_append.mpr
        refine ⟨hnd, by simp, ?_⟩
        intro a ha hb
        have hak : a = k := by simpa using hb
        obtain ⟨r, hr, hra⟩ := List.mem_map.mp ha
        exact (List.find?_eq_none.mp hkE r hr) (by simp [hra, hak])
      have hfresh1 : ∀ k2 ∈ ops.map Prod.fst,
          entryOf (E ++ [(k, v)]) k2 = none := by
        intro k2 hk2
        rw [entryOf_append]
        rw [hfresh k2 (by simp [hk2]), Option.none_or]
        apply entryOf_eq_none
        intro r hr hrk
        have hre : r = (k, v) := by simpa using hr
        apply hknotops
        have hkk2 : k = k2 := by rw [← hrk, hre]
        rw [hkk2]
        exact hk2
      simp only [insertSeq, List.foldl_cons]
      rw [setItem_fresh_spec ko E k v hko hnd hkE]
      have hstep := ih (E ++ [(k, v)]) hnd1 hopnd1 hfresh1
      have hassoc : (E ++ [(k, v)]) ++ ops = E ++ (k, v) :: ops := by simp
      rw [hassoc] at hstep
      exact hstep

/-- Construction lays the node out: the fields of an initialised node
are the documented layout of the surviving seed and keyword entries. -/
theorem initNode_spec (ko : List String)
    (seed kwargs : List (String × Value))
    (hko : (headOf ko ++ tailOf ko).Nodup)
    (hseed : seed = specFields ko seed)
    (hnd : keysNodup (seed ++ kwargs)) :
    initNode ko seed kwargs =
      Node.mk ko (specFields ko
        ((seed ++ kwargs).filter (fun p => !p.2.isNone))) := by
  have hnd2 : ((seed.map Prod.fst) ++ (kwargs.map Prod.fst)).Nodup := by
    rw [← List.map_append]
    exact hnd
  have hsnd : keysNodup seed := (List.nodup_append.mp hnd2).1
  have hknd : (kwargs.map Prod.fst).Nodup := (List.nodup_append.mp hnd2).2.1
  have hdisj : (seed.map Prod.fst).Disjoint (kwargs.map Prod.fst) :=
    (List.nodup_append.mp hnd2).2.2
  have hfresh : ∀ k ∈ kwargs.map Prod.fst, entryOf seed k = none := by
    intro k hk
    apply entryOf_eq_none
    intro r hr hrk
    exact hdisj (List.mem_map.mpr ⟨r, hr, hrk⟩) hk
  have hfold := insertSeq_spec ko hko kwargs seed hsnd hknd hfresh
  rw [← hseed] at hfold
  simp only [initNode]
  rw [show (kwargs.foldl (fun n p => n.setItem p.1 p.2) (Node.mk ko seed)) =
      insertSeq (Node.mk ko seed) kwargs from rfl]
  rw [hfold]
  rw [show (Node.mk ko (specFields ko (seed ++ kwargs))).fields =
      specFields ko (seed ++ kwargs) from rfl]
  rw [specFields_filter ko (seed ++ kwargs) _ hnd]

/-- Key presence agrees with membership in the key list. -/
theorem hasKey_eq_contains_keys (E : List (String × Value)) (k : String) :
    hasKey E k = (E.map Prod.fst).contains k := by
  by_cases h : k ∈ E.map Prod.fst
  · have h1 : hasKey E k = true := by
      obtain ⟨r, hr, hrk⟩ := List.mem_map.mp h
      unfold hasKey
      rw [List.any_eq_true]
      exact ⟨r, hr, by simp [hrk]⟩
    have h2 : (E.map Prod.fst).contains k = true := by simp [h]
    rw [h1, h2]
  · have h1 : hasKey E k = false := by
      unfold hasKey
      rw [List.any_eq_false]
      intro r hr
      simp only [beq_iff_eq]
      intro hrk
      exact h (List.mem_map.mpr ⟨r, hr, hrk⟩)
    have h2 : (E.map Prod.fst).contains k = false := by simp [h]
    rw [h1, h2]

/-- The keys of a schema segment are the present schema keys in schema
order. -/
theorem map_fst_filterMap_entry (E : List (String × Value)) :
    ∀ ks : List String, (ks.filterMap (entryOf E)).map Prod.fst =
      ks.filter (fun k => hasKey E k) := by
  intro ks
  induction ks with
  | nil => rfl
  | cons k ks ih =>
      simp only [List.filterMap_cons]
      cases he : entryOf E k with
      | none =>
          have h0 : hasKey E k = false := by rw [hasKey_eq_isSome, he]; rfl
          simp [List.filter_cons, h0, ih]
      | some p =>
          have h1 : hasKey E k = true := by rw [hasKey_eq_isSome, he]; rfl
          simp [List.filter_cons, h1, ih, entryOf_key he]

/-- Keys of a filter by a key predicate. -/
theorem map_fst_filter_key (pk : String → Bool) :
    ∀ E : List (String × Value),
      (E.filter (fun p => pk p.1)).map Prod.fst =
        (E.map Prod.fst).filter pk := by
  intro E
  induction E with
  | nil => rfl
  | cons p t ih =>
      simp only [List.filter_cons, List.map_cons]
      by_cases h : pk p.1 = true
      · simp [h, ih]
      · simp [bool_eq_false h, ih]

/-- The keys of the documented layout are the documented key layout of
the key list. -/
theorem specFields_keys (ko : List String) (E : List (String × Value)) :
    (specFields ko E).map Prod.fst = specKeys ko (E.map Prod.fst) := by
  unfold specFields specKeys
  rw [List.map_append, List.map_append]
  congr 1
  congr 1
  · rw [map_fst_filterMap_entry]
    apply List.filter_congr
    intro k _
    exact hasKey_eq_contains_keys E k
  · exact map_fst_filter_key
      (fun k => !(headOf ko).contains k && !(tailOf ko).contains k) E
  · rw [map_fst_filterMap_entry]
    apply List.filter_congr
    intro k _
    exact hasKey_eq_contains_keys E k

/-- C3: for every constructed node (any schema with unique head and
tail keys and a seed already in layout) and any sequence of fresh field
insertions, the emitted key order is exactly: the present head keys in
declared schema order, then the other present keys in first-set order,
then the present tail keys in declared schema order. -/
theorem c3_field_order (ko : List String)
    (seed kwargs ops : List (String × Value))
    (hko : (headOf ko ++ tailOf ko).Nodup)
    (hseed : seed = specFields ko seed)
    (hkeys : ((seed ++ kwargs).map Prod.fst ++ ops.map Prod.fst).Nodup) :
    (insertSeq (initNode ko seed kwargs) ops).fields.map Prod.fst =
      specKeys ko
        (((seed ++ kwargs).filter (fun p => !p.2.isNone)).map Prod.fst ++
          ops.map Prod.fst) := by
  obtain ⟨hnd, hopnd, hdisj⟩ := List.nodup_append.mp hkeys
  rw [initNode_spec ko seed kwargs hko hseed hnd]
  have hE2nd : keysNodup ((seed ++ kwargs).filter (fun p => !p.2.isNone)) :=
    List.Nodup.sublist ((List.filter_sublist _).map Prod.fst) hnd
  have hfresh : ∀ k ∈ ops.map Prod.fst,
      entryOf ((seed ++ kwargs).filter (fun p => !p.2.isNone)) k = none := by
    intro k hk
    apply entryOf_eq_none
    intro r hr hrk
    exact hdisj
      (List.mem_map.mpr ⟨r, List.mem_of_mem_filter hr, hrk⟩) hk
  rw [insertSeq_spec ko hko ops _ hE2nd hopnd hfresh]
  rw [show (Node.mk ko (specFields ko
      ((seed ++ kwargs).filter (fun p => !p.2.isNone) ++ ops))).fields =
      specFields ko
        ((seed ++ kwargs).filter (fun p => !p.2.isNone) ++ ops) from rfl]
  rw [specFields_keys, List.map_append]

theorem c3_witness :
    (headOf entitiesKeyOrder ++ tailOf entitiesKeyOrder).Nodup ∧
    (([("type", Value.vs "entities")] ++
        [("title", Value.vs "T"), ("show_header_toggle", Value.vnone)]).map
          Prod.fst ++
      ([("entities", Value.vlist []), ("extra", Value.vs "x")].map
          Prod.fst)).Nodup ∧
    (insertSeq
        (initNode entitiesKeyOrder [("type", Value.vs "entities")]
          [("title", Value.vs "T"), ("show_header_toggle", Value.vnone)])
        [("entities", Value.vlist []),
          ("extra", Value.vs "x")]).fields.map Prod.fst =
      specKeys entitiesKeyOrder
        ((([("type", Value.vs "entities")] ++
            [("title", Value.vs "T"),
              ("show_header_toggle", Value.vnone)]).filter
            (fun p => !p.2.isNone)).map Prod.fst ++
          ([("entities", Value.vlist []), ("extra", Value.vs "x")].map
            Prod.fst)) :=
  ⟨by decide, by decide,
    c3_field_order entitiesKeyOrder [("type", Value.vs "entities")]
      [("title", Value.vs "T"), ("show_header_toggle", Value.vnone)]
      [("entities", Value.vlist []), ("extra", Value.vs "x")]
      (by decide) rfl (by decide)⟩

end Lovelace

namespace Lovelace

/-- C1: for every group entity flagged as a view, resolution produces a
View node whose cards list begins with a single synthesized entities
card listing, by identifier and in encounter order, exactly those
members whose resolution yields no card, placed before all cards
produced by the other members; when every member yields a card no such
synthesized card is present. -/
theorem c1_view_group_cards (g : GEntity) (cs : List Node) (ns : List String)
    (hview : g.attributes.view = true)
    (hok : memberFold g.entities = some (cs, ns)) :
    viewFromGroupConfig g =
      some (some ((viewInit g.attributes).addItem "cards"
        (some (Value.vlist
          (((if ns.isEmpty then ([] : List Node) else [synthEntitiesCard ns])
            ++ cs).map (fun c => Value.vnode c.fields)))))) ∧
    nodeLookup ((viewInit g.attributes).addItem "cards"
        (some (Value.vlist
          (((if ns.isEmpty then ([] : List Node) else [synthEntitiesCard ns])
            ++ cs).map (fun c => Value.vnode c.fields))))).fields "cards" =
      some (Value.vlist
        (((if ns.isEmpty then ([] : List Node) else [synthEntitiesCard ns])
          ++ cs).map (fun c => Value.vnode c.fields))) ∧
    ns = ((gToList g.entities).filter
        (fun e => isNocard (cardFromConfig e))).map GEntity.entity_id ∧
    cs = (gToList g.entities).flatMap (fun e => cardsOf (cardFromConfig e)) ∧
    (synthEntitiesCard ns).fields =
      [("type", Value.vs "entities"), ("entities", vstrs ns)] := by
  have hspec := memberFold_spec g.entities cs ns hok
  refine ⟨?_, viewCards_lookup _ _, hspec.2, hspec.1, synthEntitiesCard_fields ns⟩
  simp only [viewFromGroupConfig, hview, hok]
  cases hns : ns.isEmpty <;> simp [hns]

/-- C1 witness: the spec example, a view group over a camera and a
light; the synthesized entities card for the light comes first. -/
theorem c1_witness :
    viewFromGroupConfig gView1 =
      some (some ((viewInit gView1.attributes).addItem "cards"
        (some (Value.vlist
          (([synthEntitiesCard ["light.kitchen"],
             fromCameraConfig "camera.front" attrs0]).map
            (fun c => Value.vnode c.fields)))))) :=
  (c1_view_group_cards gView1 [fromCameraConfig "camera.front" attrs0]
    ["light.kitchen"] rfl rfl).1

/-- A member of a single-card table domain yields exactly one card
when it resolves without an exception. -/
theorem cardFromConfig_single (e : GEntity) (d o : String)
    (hs : splitEntityId e.entity_id = some (d, o))
    (hd : d = "camera" ∨ d = "history_graph" ∨ d = "media_player" ∨
      d = "plant" ∨ d = "weather")
    (hok : (cardFromConfig e).isSome = true) :
    (cardsOf (cardFromConfig e)).length = 1 := by
  obtain ⟨i, a, ms⟩ := e
  simp only [GEntity.entity_id] at hs
  rcases hd with h | h | h | h | h <;> subst h
  · simp [cardFromConfig, hs, cardsOf]
  · simp only [cardFromConfig, hs] at hok ⊢
    cases he : a.entity_id with
    | none => simp [he] at hok
    | some ids => simp [he, cardsOf]
  · simp [cardFromConfig, hs, cardsOf]
  · simp [cardFromConfig, hs, cardsOf]
  · simp [cardFromConfig, hs, cardsOf]

/-- C2 amended: resolution of a non-view group used as a member
returns the primary entities card (titled with the display name, with
the header toggle from the control attribute, listing the plain member
identifiers unresolved) exactly when plain members exist, followed by
the concatenation, in encounter order, of the cards of the members:
exactly one card per single-card table domain member, and the
recursively produced list (zero or more cards) per nested group
member. -/
theorem c2_amended_group_card_list (g : GEntity) (cs : List Node)
    (ns : List String)
    (hok : memberFold g.entities = some (cs, ns)) :
    entitiesFromGroupConfig g =
      some (if ns.isEmpty then cs
            else primaryEntitiesCard g.attributes ns :: cs) ∧
    ns = ((gToList g.entities).filter
        (fun e => isNocard (cardFromConfig e))).map GEntity.entity_id ∧
    cs = (gToList g.entities).flatMap (fun e => cardsOf (cardFromConfig e)) ∧
    nodeLookup (primaryEntitiesCard g.attributes ns).fields "title" =
      g.attributes.friendly_name.map Value.vs ∧
    nodeLookup (primaryEntitiesCard g.attributes ns).fields
        "show_header_toggle" =
      some (Value.vb (g.attributes.control != some "hidden")) ∧
    nodeLookup (primaryEntitiesCard g.attributes ns).fields "entities" =
      some (vstrs ns) ∧
    (∀ e, e ∈ gToList g.entities →
      ∀ d o, splitEntityId e.entity_id = some (d, o) →
      (d = "camera" ∨ d = "history_graph" ∨ d = "media_player" ∨
        d = "plant" ∨ d = "weather") →
      (cardsOf (cardFromConfig e)).length = 1) := by
  have hspec := memberFold_spec g.entities cs ns hok
  have hlk := primaryEntitiesCard_lookups g.attributes ns
  refine ⟨?_, hspec.2, hspec.1, hlk.2.1, hlk.2.2.1, hlk.2.2.2, ?_⟩
  · simp only [entitiesFromGroupConfig, hok]
  · intro e he d o hs hd
    exact cardFromConfig_single e d o hs hd
      (memberFold_members_ok g.entities _ hok e he)

/-- C2 witness: the spec example, a non-view group over a switch and a
camera, resolves to the primary entities card for the switch followed
by the picture-entity card of the camera. -/
theorem c2_witness :
    entitiesFromGroupConfig gAB =
      some [primaryEntitiesCard gAB.attributes ["switch.a"],
            fromCameraConfig "camera.b" attrs0] :=
  (c2_amended_group_card_list gAB [fromCameraConfig "camera.b" attrs0]
    ["switch.a"] rfl).1

/-- C4 amended: a view-flagged group discovered as a member of another
group is not detected and not discarded: card resolution never reads
the view flag, so the group is recursively resolved exactly like a
non-view group (and the sibling members are processed as usual by the
member loop). -/
theorem c4_amended_view_flag_ignored (e : GEntity) (b : Bool) :
    cardFromConfig (setViewFlag e b) = cardFromConfig e := by
  obtain ⟨i, a, ms⟩ := e
  obtain ⟨fn, ic, vw, ct, hs, rf, eid⟩ := a
  simp only [setViewFlag, GEntity.entity_id, GEntity.attributes,
    GEntity.entities]
  cases hsp : splitEntityId i with
  | none => simp [cardFromConfig, hsp]
  | some p =>
      obtain ⟨d, o⟩ := p
      simp [cardFromConfig, hsp, fromCameraConfig, primaryEntitiesCard,
        fromHistoryGraphConfig]

/-- C7 amended: an entity whose domain has no rule-table entry yields
no card and no warning (from_config silently returns None); within a
group or view resolution its identifier is collected into the nocards
accumulator and thus merged into the synthesized or primary entities
card of the containing node rather than discarded. -/
theorem c7_amended_unsupported_silent :
    (∀ (i : String) (a : Attributes) (ms : GList) (d o : String),
        splitEntityId i = some (d, o) → d ∉ cardDomainsOrder →
        cardFromConfig (GEntity.mk i a ms) = some CardResult.nocard) ∧
    (∀ (e : GEntity) (rest : GList) (cs : List Node) (ns : List String),
        cardFromConfig e = some CardResult.nocard →
        memberFold rest = some (cs, ns) →
        memberFold (GList.cons e rest) = some (cs, e.entity_id :: ns)) ∧
    (∀ ns : List String,
        nodeLookup (synthEntitiesCard ns).fields "entities" =
          some (vstrs ns)) := by
  refine ⟨?_, ?_, ?_⟩
  · intro i a ms d o hsp hd
    simp only [cardDomainsOrder, List.mem_cons, List.not_mem_nil, or_false,
      not_or] at hd
    obtain ⟨n1, n2, n3, n4, n5, n6⟩ := hd
    simp [cardFromConfig, hsp, n1, n2, n3, n4, n5, n6]
  · intro e rest cs ns h1 h2
    rw [memberFold, h1, h2]
  · intro ns
    rw [synthEntitiesCard_fields]
    rfl

/-- C7 witness: the light domain is not in the rule table, so the
resolver produces no card for a light entity. -/
theorem c7_witness :
    cardFromConfig (GEntity.mk "light.x" attrs0 GList.nil) =
      some CardResult.nocard :=
  c7_amended_unsupported_silent.1 "light.x" attrs0 GList.nil "light" "x"
    rfl (by decide)

mutual
/-- A well-formed entity record resolves without an exception. -/
theorem cardFromConfig_wf_some : ∀ (e : GEntity), wfG e = true →
    (cardFromConfig e).isSome = true
  | GEntity.mk i a ms => by
      intro h
      rw [wfG] at h
      obtain ⟨hsp, hl⟩ : _ ∧ _ := by simpa using h
      cases hspc : splitEntityId i with
      | none => rw [hspc] at hsp; exact absurd hsp (by simp)
      | some p =>
          obtain ⟨d, o⟩ := p
          rw [hspc] at hsp
          simp only at hsp
          simp only [cardFromConfig, hspc]
          split_ifs with hc hg hh hmp hpl hwe
          · rfl
          · have hmm := memberFold_wf_some ms hl
            obtain ⟨q, hq⟩ := Option.isSome_iff_exists.mp hmm
            obtain ⟨cs, ns⟩ := q
            rw [hq]
            rfl
          · have hd : d = "history_graph" := by simpa using hh
            rw [hd] at hsp
            simp only [bne_self_eq_false, Bool.false_or] at hsp
            obtain ⟨ids, hids⟩ := Option.isSome_iff_exists.mp hsp
            rw [hids]
            rfl
          · rfl
          · rfl
          · rfl
          · rfl
termination_by structural e => e
/-- A well-formed member list folds without an exception. -/
theorem memberFold_wf_some : ∀ (l : GList), wfL l = true →
    (memberFold l).isSome = true
  | GList.nil => by intro _; rfl
  | GList.cons e rest => by
      intro h
      rw [wfL] at h
      obtain ⟨h1, h2⟩ : _ ∧ _ := by simpa using h
      have he := cardFromConfig_wf_some e h1
      have hr := memberFold_wf_some rest h2
      obtain ⟨r, hcr⟩ := Option.isSome_iff_exists.mp he
      obtain ⟨q, hq⟩ := Option.isSome_iff_exists.mp hr
      obtain ⟨cs, ns⟩ := q
      rw [memberFold, hcr, hq]
      cases r <;> rfl
termination_by structural l => l
end

/-- build_entities completes on every record list whose identifiers
carry the domain separator. -/
theorem build_entities_wf : ∀ (es : List StateEntity),
    (∀ e ∈ es, (splitEntityId e.entity_id).isSome = true) →
    (build_entities es).isSome = true := by
  intro es
  induction es with
  | nil => intro _; rfl
  | cons e rest ih =>
      intro h
      have he := h e (by simp)
      obtain ⟨p, hp⟩ := Option.isSome_iff_exists.mp he
      obtain ⟨d, o⟩ := p
      obtain ⟨rs, hrs⟩ := Option.isSome_iff_exists.mp
        (ih (fun x hx => h x (by simp [hx])))
      rw [build_entities]
      simp [enrich, hp, hrs]

/-- C6 amended: the conversion completes for inputs that satisfy the
input contract (identifiers carry the separator, history_graph records
carry the entity_id attribute): build_entities returns a registry and
card resolution returns a result (missing card rules and unsupported
domains recover as None results).  Malformed entities instead raise,
per the C6 counterexample. -/
theorem c6_amended_wellformed_total :
    (∀ (es : List StateEntity),
        (∀ e ∈ es, (splitEntityId e.entity_id).isSome = true) →
        (build_entities es).isSome = true) ∧
    (∀ (g : GEntity), wfG g = true → (cardFromConfig g).isSome = true) :=
  ⟨build_entities_wf, cardFromConfig_wf_some⟩

/-- C6 witness: the amended totality applied to a concrete separator
carrying record and a concrete empty group. -/
theorem c6_witness :
    (build_entities [StateEntity.mk "light.kitchen" "on" attrs0]).isSome =
      true ∧
    (cardFromConfig (GEntity.mk "group.g" attrs0 GList.nil)).isSome = true :=
  ⟨c6_amended_wellformed_total.1 [StateEntity.mk "light.kitchen" "on" attrs0]
      (by decide),
   c6_amended_wellformed_total.2 (GEntity.mk "group.g" attrs0 GList.nil)
      (by decide)⟩

/-- Every identifier the member resolution of build_states keeps is
found in the registry. -/
theorem mem_resolvedMemberIds (all : List RichEntity) (e : RichEntity)
    (x : String) (hx : x ∈ resolvedMemberIds all e) :
    (lookupEntity all x).isSome = true := by
  unfold resolvedMemberIds at hx
  cases he : e.attributes.entity_id with
  | none => rw [he] at hx; simp at hx
  | some ids =>
      rw [he] at hx
      clear he
      suffices hgen : ∀ (acc : List String),
          (∀ y ∈ acc, (lookupEntity all y).isSome = true) →
          ∀ z ∈ ids.foldl (fun acc x =>
            if (lookupEntity all x).isSome && !(acc.contains x)
            then acc ++ [x] else acc) acc,
          (lookupEntity all z).isSome = true by
        exact hgen [] (by simp) x hx
      clear hx
      induction ids with
      | nil => intro acc hacc z hz; exact hacc z hz
      | cons y t ih =>
          intro acc hacc z hz
          rw [List.foldl_cons] at hz
          by_cases hy : ((lookupEntity all y).isSome && !(acc.contains y)) = true
          · rw [if_pos hy] at hz
            refine ih (acc ++ [y]) ?_ z hz
            intro w hw
            rcases List.mem_append.mp hw with hw | hw
            · exact hacc w hw
            · have hwy : w = y := by simpa using hw
              rw [hwy]
              exact (Bool.and_eq_true _ _ ▸ hy).1
          · rw [if_neg hy] at hz
            exact ih acc hacc z hz

/-- C5 amended: a membership identifier absent from the registry is
silently excluded from the resolved member collection of build_states
(without any diagnostic; the code logs nothing there), while the raw
entity list of a history_graph record is copied verbatim into its
card, so a dangling identifier there does appear in the output. -/
theorem c5_amended_dangling_refs :
    (∀ (all : List RichEntity) (e : RichEntity) (x : String),
        lookupEntity all x = none → x ∉ resolvedMemberIds all e) ∧
    (∀ (i : String) (a : Attributes) (ms : GList) (o : String)
        (ids : List String),
        splitEntityId i = some ("history_graph", o) →
        a.entity_id = some ids →
        cardFromConfig (GEntity.mk i a ms) =
          some (CardResult.card (fromHistoryGraphConfig a ids)) ∧
        nodeLookup (fromHistoryGraphConfig a ids).fields "entities" =
          some (vstrs ids)) := by
  constructor
  · intro all e x hnone hmem
    have := mem_resolvedMemberIds all e x hmem
    rw [hnone] at this
    exact absurd this (by simp)
  · intro i a ms o ids hsp hids
    refine ⟨?_, historyGraphCard_lookup_entities a ids⟩
    simp [cardFromConfig, hsp, hids]

/-- C5 witness: a dangling identifier is excluded from the resolved
members of a group over the empty registry, and the same identifier is
copied verbatim into a history-graph card. -/
theorem c5_witness :
    ("sensor.ghost" ∉ resolvedMemberIds []
        (RichEntity.mk "group.g" "on" hgAttrs5 "group" "g")) ∧
    cardFromConfig (GEntity.mk "history_graph.h" hgAttrs5 GList.nil) =
      some (CardResult.card
        (fromHistoryGraphConfig hgAttrs5 ["sensor.ghost"])) :=
  ⟨c5_amended_dangling_refs.1 []
      (RichEntity.mk "group.g" "on" hgAttrs5 "group" "g") "sensor.ghost" rfl,
   (c5_amended_dangling_refs.2 "history_graph.h" hgAttrs5 GList.nil "h"
      ["sensor.ghost"] rfl rfl).1⟩

/-- C8 amended: the derived display name equals the friendly_name
attribute whenever that attribute is present (including when it is the
empty string), and otherwise the pure synthesis from the object id
(underscores to spaces, title case); the synthesis matches the spec
examples and is idempotent. -/
theorem c8_amended_display_name :
    (∀ (e : StateEntity) (d o : String),
        splitEntityId e.entity_id = some (d, o) →
        (enrich e).map (fun r => r.attributes.friendly_name) =
          some (some (e.attributes.friendly_name.getD (synth o)))) ∧
    synth "kitchen_lights" = "Kitchen Lights" ∧
    synth "ac" = "Ac" ∧
    (∀ s : String, synth (synth s) = synth s) := by
  refine ⟨?_, rfl, rfl, synth_idem⟩
  intro e d o hsp
  simp [enrich, hsp]

/-- C8 witness: the amended naming rule applied to a record without a
friendly name synthesizes Kitchen Lights. -/
theorem c8_witness :
    (enrich (StateEntity.mk "light.kitchen_lights" "on" attrs0)).map
      (fun r => r.attributes.friendly_name) =
      some (some "Kitchen Lights") :=
  c8_amended_display_name.1 (StateEntity.mk "light.kitchen_lights" "on"
    attrs0) "light" "kitchen_lights" rfl

/-- C9 amended: conversion preserves the identifier, the state value
and every attribute other than friendly_name of each ingested record,
but extends the record in place: domain and object_id keys are added
and friendly_name is defaulted from the object id (kept verbatim when
it was present). -/
theorem c9_amended_input_records :
    ∀ (es : List StateEntity) (rs : List RichEntity),
      build_entities es = some rs → List.Forall₂ enrichSpec es rs := by
  intro es
  induction es with
  | nil =>
      intro rs h
      rw [build_entities] at h
      simp only [Option.some.injEq] at h
      rw [← h]
      exact List.Forall₂.nil
  | cons e rest ih =>
      intro rs h
      rw [build_entities] at h
      cases he : enrich e with
      | none => rw [he] at h; exact absurd h (by simp)
      | some r =>
          rw [he] at h
          cases hr : build_entities rest with
          | none => rw [hr] at h; exact absurd h (by simp)
          | some rs1 =>
              rw [hr] at h
              simp only [Option.some.injEq] at h
              rw [← h]
              refine List.Forall₂.cons ?_ (ih rs1 hr)
              unfold enrich at he
              cases hsp : splitEntityId e.entity_id with
              | none => rw [hsp] at he; exact absurd he (by simp)
              | some p =>
                  obtain ⟨d, o⟩ := p
                  rw [hsp] at he
                  simp only [Option.some.injEq] at he
                  rw [← he]
                  refine ⟨rfl, rfl, rfl, rfl, rfl, rfl, rfl, rfl, rfl, ?_⟩
                  intro fn hfn
                  simp [enrichSpec, hfn]

/-- C9 witness: the amended record effect applied to a concrete record
without a friendly name. -/
theorem c9_witness :
    List.Forall₂ enrichSpec [e9]
      [RichEntity.mk "light.kitchen_lights" "on"
        { attrs0 with friendly_name := some "Kitchen Lights" }
        "light" "kitchen_lights"] :=
  c9_amended_input_records [e9] _ rfl

/-- C10: add_item with a None item leaves the node unchanged, and so do
add_card, add_entity, add_view and add_resource given a None argument:
no key is created and no element is appended, so a member whose
conversion returns None contributes no field to its parent node. -/
theorem c10_add_item_none_noop :
    ∀ (n : Node) (k : String),
      n.addItem k none = n ∧ addCard n none = n ∧ addEntity n none = n ∧
      addView n none = n ∧ addResource n none = n :=
  fun _ _ => ⟨rfl, rfl, rfl, rfl, rfl⟩

/-- C2 counterexample: a group with exactly one member (a nested
non-view group with a switch and a camera) and zero plain members
resolves to a list of two cards, not one card per card-producing
member as the claim states. -/
theorem c2_counterexample :
    memberFold gOuter2.entities =
      some ([primaryEntitiesCard attrs0 ["switch.a"],
             fromCameraConfig "camera.b" attrs0], []) ∧
    entitiesFromGroupConfig gOuter2 =
      some [primaryEntitiesCard attrs0 ["switch.a"],
            fromCameraConfig "camera.b" attrs0] ∧
    (gToList gOuter2.entities).length = 1 :=
  ⟨rfl, rfl, rfl⟩

/-- C4 counterexample: a view-flagged group discovered as a member of
another group is not discarded: the resolver recurses into it and its
entities card appears in the output of the containing group. -/
theorem c4_counterexample :
    gInnerView.attributes.view = true ∧
    entitiesFromGroupConfig gOuterWithView =
      some [primaryEntitiesCard innerViewAttrs ["switch.a"]] :=
  ⟨rfl, rfl⟩

/-- C5 counterexample: the identifier sensor.ghost is referenced by a
history_graph membership list but is absent from the registry, yet it
appears verbatim in the entities collection of a card of the produced
document. -/
theorem c5_counterexample :
    firstViewFirstCardEntities (lovelaceInit 5 none sj5) =
      some (vstrs ["sensor.ghost"]) ∧
    registryHas sj5 "sensor.ghost" = false :=
  ⟨rfl, rfl⟩

/-- C6 counterexample: an entity whose identifier lacks the domain
separator aborts the conversion (no document is returned), and a
history_graph record without the entity_id attribute raises out of the
card builder. -/
theorem c6_counterexample :
    lovelaceInit 5 none [StateEntity.mk "kitchen" "on" attrs0] = none ∧
    cardFromConfig (GEntity.mk "history_graph.h" attrs0 GList.nil) = none :=
  ⟨rfl, rfl⟩

/-- C7 counterexample: a light member of a view produces no card, but
instead of being discarded from the parent and logged, its identifier
is merged into the synthesized entities card of that view. -/
theorem c7_counterexample :
    cardFromConfig (GEntity.mk "light.x" attrs0 GList.nil) =
      some CardResult.nocard ∧
    viewFromGroupConfig gLightView =
      some (some ((viewInit viewAttrs1).addItem "cards"
        (some (Value.vlist
          [Value.vnode (synthEntitiesCard ["light.x"]).fields])))) ∧
    nodeLookup (synthEntitiesCard ["light.x"]).fields "entities" =
      some (vstrs ["light.x"]) :=
  ⟨rfl, rfl, rfl⟩

/-- C8 counterexample: a present but empty friendly_name attribute is
kept as the display name; the claim predicts the synthesized name
Kitchen Lights in this case. -/
theorem c8_counterexample :
    friendlyNamesAfterBuild [e8] = some [some ""] ∧
    synth "kitchen_lights" = "Kitchen Lights" ∧
    ("" : String) ≠ "Kitchen Lights" :=
  ⟨rfl, rfl, by decide⟩

/-- C9 counterexample: conversion extends the attributes mapping of an
ingested record in place: a record without a friendly_name attribute
holds one after build_entities ran, so the record is not equal to what
was ingested. -/
theorem c9_counterexample :
    e9.attributes.friendly_name = none ∧
    friendlyNamesAfterBuild [e9] = some [some "Kitchen Lights"] :=
  ⟨rfl, rfl⟩

end Lovelace
